import Mathlib

/-!
# Verification of `convert_us_to_jis.py`

A shallow embedding of the US→JIS keymap converter.  Strings are modelled as
`List Char` (`Str`); Python dictionaries as association lists where insertion
overwrites the binding of an existing key in place (`dictInsert`), which
reproduces Python's plain-assignment (last-write-wins) semantics; and the
regular-expression substitution `re.sub(r'&([a-zA-Z_][a-zA-Z0-9_]*)\s+([^,;>\n]+)', repl, line)`
as an explicit left-to-right scanner (`subAll`) whose single-match attempt
(`matchBinding`) implements the pattern with the greedy/backtracking
semantics of the Python `re` engine: the keyword run `[a-zA-Z0-9_]*` is
maximal, `\s+` is maximal but gives characters back (down to one) so that the
mandatory `[^,;>\n]+` group can match at least one character, and the
argument group is then maximal.  Whitespace classes (`\s`, `str.split()`)
are modelled at the ASCII level (space, tab, newline, carriage return,
vertical tab, form feed); Python additionally treats some non-ASCII
code points as whitespace, which keymap files do not contain.
-/

abbrev Str := List Char

/-- ASCII fragment of Python's `\s` class / `str.split()` whitespace. -/
def isPySpace (c : Char) : Bool :=
  c = ' ' || c = '\t' || c = '\n' || c = '\r' || c = '\u000B' || c = '\u000C'

/-- The stop set of the argument group `[^,;>\n]+`: a character the run must not contain. -/
def isStop (c : Char) : Bool :=
  c = ',' || c = ';' || c = '>' || c = '\n'

/-- `[a-zA-Z_]`, the first character of a binding keyword. -/
def isIdentStart (c : Char) : Bool := c.isAlpha || c = '_'

/-- `[a-zA-Z0-9_]`, the remaining characters of a binding keyword. -/
def isIdentChar (c : Char) : Bool := c.isAlpha || c.isDigit || c = '_'

/-- `CONVERSION_TABLE`: (JP_define_name, [US_key_names], define_value, symbol_comment),
transcribed entry by entry from the source (the last component of the
`JP_YEN` entry is the two-character sequence U+00C2 U+00A5 that the source
file contains). -/
def CONVERSION_TABLE : List (Str × List Str × Str × Str) := [
  ("JP_DQUOTE".data, ["DOUBLE_QUOTES".data, "DOUBLE_QUOTE".data, "DQT".data], "AT".data, "\"".data),
  ("JP_AMPERSAND".data, ["AMPERSAND".data, "AMPS".data, "AMP".data], "CARET".data, "&".data),
  ("JP_QUOTE".data, ["SINGLE_QUOTE".data, "SQT".data, "APOS".data], "AMPERSAND".data, "'".data),
  ("JP_EQUAL".data, ["EQUAL".data, "EQL".data], "UNDERSCORE".data, "=".data),
  ("JP_CARET".data, ["CARET".data], "EQUAL".data, "^".data),
  ("JP_YEN".data, ["YEN".data, "BACKSLASH".data], "0x89".data, "Â¥".data),
  ("JP_PLUS".data, ["PLUS".data], "COLON".data, "+".data),
  ("JP_TILDE".data, ["TILDE".data], "PLUS".data, "~".data),
  ("JP_PIPE".data, ["PIPE".data], "LS(0x89)".data, "|".data),
  ("JP_AT".data, ["AT".data], "LEFT_BRACKET".data, "@".data),
  ("JP_COLON".data, ["COLON".data], "SINGLE_QUOTE".data, ":".data),
  ("JP_ASTERISK".data, ["ASTERISK".data, "ASTRK".data, "STAR".data], "DOUBLE_QUOTES".data, "*".data),
  ("JP_BACKQUOTE".data, ["BACKQUOTE".data, "GRAVE".data], "LEFT_BRACE".data, "`".data),
  ("JP_UNDERSCORE".data, ["UNDERSCORE".data, "UNDER".data], "LS(0x87)".data, "_".data),
  ("JP_LBRACKET".data, ["LEFT_BRACKET".data, "LBKT".data, "LBRC".data], "RIGHT_BRACKET".data, "[".data),
  ("JP_RBRACKET".data, ["RIGHT_BRACKET".data, "RBKT".data, "RBRC".data], "BACKSLASH".data, "]".data),
  ("JP_LPAREN".data, ["LEFT_PARENTHESIS".data, "LPAR".data], "ASTERISK".data, "(".data),
  ("JP_RPAREN".data, ["RIGHT_PARENTHESIS".data, "RPAR".data], "LEFT_PARENTHESIS".data, ")".data),
  ("JP_LBRACE".data, ["LEFT_BRACE".data, "LBRC".data], "RIGHT_BRACE".data, "\x7b".data),
  ("JP_RBRACE".data, ["RIGHT_BRACE".data, "RBRC".data], "PIPE".data, "\x7d".data),
  ("JP_KANA".data, ["KANA".data], "LANGUAGE_1".data, "kana".data),
  ("JP_EISU".data, ["EISU".data], "LANGUAGE_2".data, "eisu".data),
  ("JP_HANZEN".data, ["HANZEN".data, "HANKAKU_ZENKAKU".data], "GRAVE".data, "hankaku/zenkaku".data)]

/-- `BINDING_KEY_ARG_RULES`: binding keyword → 0-based index of the key-name
argument; `-1` means the last argument. -/
def BINDING_KEY_ARG_RULES : List (Str × Int) :=
  [("kp".data, 0), ("mt".data, -1), ("lt".data, -1), ("lt_to_layer_0".data, -1)]

/-- Assignment `d[k] = v` into a Python dict modelled as an association list:
an existing binding of `k` is overwritten in place, otherwise the pair is
appended. -/
def dictInsert (m : List (Str × Str)) (k v : Str) : List (Str × Str) :=
  match m with
  | [] => [(k, v)]
  | p :: rest => if p.1 = k then (k, v) :: rest else p :: dictInsert rest k v

/-- Dict lookup (keys are unique in the `dictInsert` model, so the first hit
is the binding). -/
def lookupMap (m : List (Str × Str)) (k : Str) : Option Str :=
  (m.find? (fun p => p.1 = k)).map (·.2)

/-- `create_conversion_map`: for each table entry, for each US name,
`conversion_map[us_name] = jp_name`. -/
def create_conversion_map : List (Str × Str) :=
  CONVERSION_TABLE.foldl
    (fun m e => e.2.1.foldl (fun m' a => dictInsert m' a e.1) m) []

/-- Helper for `pySplit`: accumulates the current token (reversed). -/
def pySplitAux : Str → Str → List Str
  | [], acc => if acc = [] then [] else [acc.reverse]
  | c :: cs, acc =>
    if isPySpace c then
      if acc = [] then pySplitAux cs [] else acc.reverse :: pySplitAux cs []
    else pySplitAux cs (c :: acc)

/-- Python `str.split()` with no separator: split on runs of whitespace,
producing no empty tokens. -/
def pySplit (s : Str) : List Str := pySplitAux s []

/-- Python `" ".join(ts)`. -/
def joinSpace (ts : List Str) : Str := (ts.intersperse [' ']).flatten

/-- Backtracking loop of `\s+([^,;>\n]+)`: try to let `\s+` take `j`
characters, largest `j` first; succeed at the first `j ≥ 1` whose following
character exists and is not in the stop set, the argument group then being
the maximal non-stop run. -/
def tryJ (l : Str) : Nat → Option (Str × Str × Str)
  | 0 => none
  | j + 1 =>
    match l.drop (j + 1) with
    | [] => tryJ l j
    | c :: cs =>
      if isStop c then tryJ l j
      else
        some (l.take (j + 1), (c :: cs).takeWhile (fun x => !(isStop x)),
          (c :: cs).dropWhile (fun x => !(isStop x)))

/-- Match `\s+([^,;>\n]+)` at the head of `l`; on success, returns the
whitespace actually consumed, the argument-group text, and the rest. -/
def matchWsArgs (l : Str) : Option (Str × Str × Str) :=
  tryJ l (l.takeWhile isPySpace).length

/-- Match `&([a-zA-Z_][a-zA-Z0-9_]*)\s+([^,;>\n]+)` at the head of the input;
on success, returns (keyword, consumed whitespace, argument-group text, rest). -/
def matchBinding : Str → Option (Str × Str × Str × Str)
  | c0 :: c :: rest =>
    if c0 = '&' ∧ isIdentStart c then
      match matchWsArgs (rest.dropWhile isIdentChar) with
      | some (ws, args, r2) => some (c :: rest.takeWhile isIdentChar, ws, args, r2)
      | none => none
    else none
  | _ => none

/-- The replacement callback `repl` of `convert_keymap_line`, applied to a
match decomposed as keyword/whitespace/argument text.  `m.group(0)` is
`'&' ++ binding ++ ws ++ argsStr`. -/
def repl (rules : List (Str × Int)) (cmap : List (Str × Str))
    (binding ws argsStr : Str) : Str :=
  match (rules.find? (fun p => p.1 = binding)).map (·.2) with
  | none => '&' :: (binding ++ ws ++ argsStr)
  | some sel =>
    let args := pySplit argsStr
    if args = [] then '&' :: (binding ++ ws ++ argsStr)
    else
      let idx : Int := if 0 ≤ sel then sel else (args.length : Int) + sel
      if idx < 0 ∨ (args.length : Int) ≤ idx then '&' :: (binding ++ ws ++ argsStr)
      else
        let i := idx.toNat
        let args' :=
          match lookupMap cmap (args.getD i []) with
          | some tgt => args.set i tgt
          | none => args
        '&' :: (binding ++ ' ' :: joinSpace args')

/-- The scan loop of `re.sub`, written with explicit fuel so that it is
structurally recursive and evaluates in the kernel: try a match at each
position left to right; on a match, emit the replacement and continue after
the matched span, otherwise copy one character and continue.  A fuel of
`l.length` always suffices (each step strictly shrinks the input, see
`subAllF_congr`), and the fuel-0 case is reached only on the empty input. -/
def subAllF (rules : List (Str × Int)) (cmap : List (Str × Str)) : Nat → Str → Str
  | 0, _ => []
  | f + 1, l =>
    match matchBinding l with
    | some (kw, ws, args, rest) =>
      repl rules cmap kw ws args ++ subAllF rules cmap f rest
    | none =>
      match l with
      | [] => []
      | c :: cs => c :: subAllF rules cmap f cs

/-- The full scan `re.sub(pattern, repl, l)`. -/
def subAll (rules : List (Str × Int)) (cmap : List (Str × Str)) (l : Str) : Str :=
  subAllF rules cmap l.length l

/-- `convert_keymap_line(line, conversion_map)`. -/
def convert_keymap_line (line : Str) (cmap : List (Str × Str)) : Str :=
  subAll BINDING_KEY_ARG_RULES cmap line

/-- Python `"{:<20}".format(v)`-style left justification to width 20. -/
def ljust20 (s : Str) : Str := s ++ List.replicate (20 - s.length) ' '

/-- The list `lines` built by `generate_define_header`: three banner lines,
one `#define` line per table entry, then an empty line. -/
def generate_define_header_lines : List Str :=
  ["// ========================================".data,
   "// JIS Keyboard Layout Definitions".data,
   "// ========================================".data]
  ++ CONVERSION_TABLE.map (fun e =>
      "#define ".data ++ e.1 ++ List.replicate (max 1 (20 - e.1.length)) ' '
        ++ ljust20 e.2.2.1 ++ "// ".data ++ e.2.2.2)
  ++ [[]]

/-- `generate_define_header()`: `"\n".join(lines)`. -/
def generate_define_header : Str :=
  (generate_define_header_lines.intersperse ['\n']).flatten

theorem repl_rule_none {rules : List (Str × Int)} {cmap : List (Str × Str)}
    {binding ws argsStr : Str}
    (hrule : (rules.find? (fun p => p.1 = binding)).map (·.2) = none) :
    repl rules cmap binding ws argsStr = '&' :: (binding ++ ws ++ argsStr) := by
  unfold repl
  rw [hrule]

theorem repl_rule_some {rules : List (Str × Int)} {cmap : List (Str × Str)}
    {binding ws argsStr : Str} {sel : Int}
    (hrule : (rules.find? (fun p => p.1 = binding)).map (·.2) = some sel) :
    repl rules cmap binding ws argsStr =
      (let args := pySplit argsStr
       if args = [] then '&' :: (binding ++ ws ++ argsStr)
       else
         let idx : Int := if 0 ≤ sel then sel else (args.length : Int) + sel
         if idx < 0 ∨ (args.length : Int) ≤ idx then '&' :: (binding ++ ws ++ argsStr)
         else
           let i := idx.toNat
           let args' :=
             match lookupMap cmap (args.getD i []) with
             | some tgt => args.set i tgt
             | none => args
           '&' :: (binding ++ ' ' :: joinSpace args')) := by
  unfold repl
  rw [hrule]

theorem tryJ_rest_length_lt {l w a r : Str} :
    ∀ {j}, tryJ l j = some (w, a, r) → r.length < l.length := by
  intro j
  induction j with
  | zero => intro h; simp [tryJ] at h
  | succ j ih =>
    intro h
    rw [tryJ] at h
    split at h
    · exact ih h
    · next c cs hd =>
      split at h
      · exact ih h
      · next hc =>
        have hr : r = (c :: cs).dropWhile (fun x => !(isStop x)) := by
          simp only [Option.some.injEq, Prod.mk.injEq] at h
          exact h.2.2.symm
        have hlen : r.length ≤ (c :: cs).length := by
          rw [hr]; exact (List.dropWhile_sublist _).length_le
        have hdl : (l.drop (j + 1)).length = l.length - (j + 1) := List.length_drop _ _
        have hne : l.drop (j + 1) ≠ [] := by rw [hd]; simp
        have hlt : j + 1 < l.length := by
          by_contra hge
          push_neg at hge
          exact hne (List.drop_eq_nil_of_le hge)
        have hcl : (c :: cs).length = l.length - (j + 1) := by rw [← hd]; exact hdl
        simp only [List.length_cons] at hcl hlen
        omega

theorem matchBinding_rest_length_lt {l kw ws args r : Str}
    (h : matchBinding l = some (kw, ws, args, r)) : r.length < l.length := by
  match l with
  | [] => simp [matchBinding] at h
  | [c] => simp [matchBinding] at h
  | c0 :: c :: rest =>
    rw [matchBinding] at h
    by_cases hc : c0 = '&' ∧ isIdentStart c
    · rw [if_pos hc] at h
      rcases hm : matchWsArgs (rest.dropWhile isIdentChar) with _ | ⟨ws', args', r2⟩
      · rw [hm] at h; simp at h
      · rw [hm] at h
        simp only [Option.some.injEq, Prod.mk.injEq] at h
        have hr : r = r2 := h.2.2.2.symm
        have h1 : r2.length < (rest.dropWhile isIdentChar).length :=
          tryJ_rest_length_lt hm
        have h2 : (rest.dropWhile isIdentChar).length ≤ rest.length :=
          (List.dropWhile_sublist _).length_le
        subst hr
        simp only [List.length_cons]
        omega
    · rw [if_neg hc] at h; simp at h

theorem subAllF_zero (rules : List (Str × Int)) (cmap : List (Str × Str))
    (l : Str) : subAllF rules cmap 0 l = [] := rfl

theorem subAllF_succ (rules : List (Str × Int)) (cmap : List (Str × Str))
    (f : Nat) (l : Str) :
    subAllF rules cmap (f + 1) l =
      (match matchBinding l with
       | some (kw, ws, args, rest) =>
         repl rules cmap kw ws args ++ subAllF rules cmap f rest
       | none =>
         match l with
         | [] => []
         | c :: cs => c :: subAllF rules cmap f cs) := rfl

theorem subAllF_succ_match {l kw ws args rest : Str} (rules : List (Str × Int))
    (cmap : List (Str × Str)) (f : Nat)
    (h : matchBinding l = some (kw, ws, args, rest)) :
    subAllF rules cmap (f + 1) l =
      repl rules cmap kw ws args ++ subAllF rules cmap f rest := by
  simp only [subAllF_succ, h]

theorem subAllF_succ_none {l : Str} (rules : List (Str × Int))
    (cmap : List (Str × Str)) (f : Nat) (h : matchBinding l = none) :
    subAllF rules cmap (f + 1) l =
      (match l with
       | [] => []
       | c :: cs => c :: subAllF rules cmap f cs) := by
  simp only [subAllF_succ, h]
  rcases l with _ | ⟨c, cs⟩ <;> rfl

theorem subAllF_congr (rules : List (Str × Int)) (cmap : List (Str × Str)) :
    ∀ f f' l, l.length ≤ f → l.length ≤ f' →
      subAllF rules cmap f l = subAllF rules cmap f' l := by
  intro f
  induction f with
  | zero =>
    intro f' l h _
    have hl : l = [] := List.length_eq_zero.mp (Nat.le_zero.mp h)
    subst hl
    cases f' with
    | zero => rfl
    | succ f' =>
      rw [subAllF_zero, subAllF_succ_none rules cmap f' (by rfl)]
  | succ f ih =>
    intro f' l h h'
    cases f' with
    | zero =>
      have hl : l = [] := List.length_eq_zero.mp (Nat.le_zero.mp h')
      subst hl
      rw [subAllF_zero, subAllF_succ_none rules cmap f (by rfl)]
    | succ f' =>
      rcases hm : matchBinding l with _ | ⟨⟨kw, ws, args, rest⟩⟩
      · rw [subAllF_succ_none rules cmap f hm, subAllF_succ_none rules cmap f' hm]
        rcases l with _ | ⟨c, cs⟩
        · rfl
        · simp only [List.length_cons] at h h'
          exact congrArg (c :: ·) (ih f' cs (by omega) (by omega))
      · have hlt := matchBinding_rest_length_lt hm
        rw [subAllF_succ_match rules cmap f hm, subAllF_succ_match rules cmap f' hm,
          ih f' rest (by omega) (by omega)]

theorem subAll_nil (rules : List (Str × Int)) (cmap : List (Str × Str)) :
    subAll rules cmap [] = [] := rfl

theorem subAll_match {l kw ws args rest : Str} (rules : List (Str × Int))
    (cmap : List (Str × Str)) (h : matchBinding l = some (kw, ws, args, rest)) :
    subAll rules cmap l =
      repl rules cmap kw ws args ++ subAll rules cmap rest := by
  have hne : l ≠ [] := by
    intro e; subst e; simp [matchBinding] at h
  rcases l with _ | ⟨c, cs⟩
  · exact absurd rfl hne
  · show subAllF rules cmap (c :: cs).length (c :: cs) = _
    simp only [List.length_cons]
    rw [subAllF_succ_match rules cmap cs.length h]
    have hlt := matchBinding_rest_length_lt h
    simp only [List.length_cons] at hlt
    rw [subAllF_congr rules cmap cs.length rest.length rest (by omega) (le_refl _)]
    rfl

theorem subAll_cons_none {c : Char} {cs : Str} (rules : List (Str × Int))
    (cmap : List (Str × Str)) (h : matchBinding (c :: cs) = none) :
    subAll rules cmap (c :: cs) = c :: subAll rules cmap cs := by
  show subAllF rules cmap (c :: cs).length (c :: cs) = _
  simp only [List.length_cons]
  rw [subAllF_succ_none rules cmap cs.length h]
  rfl

theorem lookupMap_mem {m : List (Str × Str)} {k v : Str}
    (h : lookupMap m k = some v) : ∃ p ∈ m, p.1 = k ∧ p.2 = v := by
  unfold lookupMap at h
  rcases hf : m.find? (fun p => p.1 = k) with _ | p
  · rw [hf] at h; simp at h
  · rw [hf] at h
    simp at h
    refine ⟨p, List.mem_of_find?_eq_some hf, ?_, h⟩
    have := List.find?_some hf
    simpa using this

theorem lookupMap_none_of_paren {k : Str}
    (hk : '(' ∈ k) : lookupMap create_conversion_map k = none := by
  rcases hl : lookupMap create_conversion_map k with _ | v
  · rfl
  · exfalso
    obtain ⟨p, hp, hpk, _⟩ := lookupMap_mem hl
    have hnp : ∀ q ∈ create_conversion_map, '(' ∉ q.1 := by decide
    exact hnp p hp (hpk ▸ hk)

theorem tryJ_succ_of_drop_nil {l : Str} {j : Nat} (h : l.drop (j + 1) = []) :
    tryJ l (j + 1) = tryJ l j := by
  rw [tryJ, h]

theorem tryJ_succ_of_stop {l : Str} {j : Nat} {c : Char} {cs : Str}
    (h : l.drop (j + 1) = c :: cs) (hc : isStop c = true) :
    tryJ l (j + 1) = tryJ l j := by
  rw [tryJ, h]
  simp [hc]

theorem tryJ_succ_of_nonstop {l : Str} {j : Nat} {c : Char} {cs : Str}
    (h : l.drop (j + 1) = c :: cs) (hc : isStop c = false) :
    tryJ l (j + 1) =
      some (l.take (j + 1), (c :: cs).takeWhile (fun x => !(isStop x)),
        (c :: cs).dropWhile (fun x => !(isStop x))) := by
  rw [tryJ, h]
  simp [hc]

theorem takeWhile_append_single {p : Char → Bool} {l : Str} {y : Char}
    (h : p y = false) : (l ++ [y]).takeWhile p = l.takeWhile p := by
  rw [List.takeWhile_append]
  split
  · next hlen =>
    have hl : l.takeWhile p = l := (List.takeWhile_sublist p).eq_of_length hlen
    simp [h, hl]
  · rfl

theorem dropWhile_append_single {p : Char → Bool} {l : Str} {y : Char}
    (h : p y = false) : (l ++ [y]).dropWhile p = l.dropWhile p ++ [y] := by
  rw [List.dropWhile_append]
  split
  · next he =>
    rw [List.isEmpty_iff] at he
    rw [he]
    simp [List.dropWhile_cons, h]
  · rfl

theorem takeWhile_eq_self_iff_length {p : Char → Bool} {l : Str} :
    l.takeWhile p = l ↔ (l.takeWhile p).length = l.length := by
  constructor
  · intro h; rw [h]
  · intro h; exact (List.takeWhile_sublist p).eq_of_length h

theorem tryJ_append_nl_some {l w a r : Str} :
    ∀ {j}, j ≤ l.length → tryJ l j = some (w, a, r) →
      tryJ (l ++ ['\n']) j = some (w, a, r ++ ['\n']) := by
  intro j
  induction j with
  | zero => intro _ h; simp [tryJ] at h
  | succ j ih =>
    intro hj h
    rcases hd : l.drop (j + 1) with _ | ⟨c, cs⟩
    · rw [tryJ_succ_of_drop_nil hd] at h
      have hle : l.length ≤ j + 1 := List.drop_eq_nil_iff.mp hd
      have hd2 : (l ++ ['\n']).drop (j + 1) =
          List.drop (j + 1 - l.length) ['\n'] := by
        rw [List.drop_append_eq_append_drop, List.drop_eq_nil_of_le hle,
          List.nil_append]
      rcases Nat.lt_or_ge l.length (j + 1) with hlt | hge
      · have : j + 1 - l.length = 1 ∨ 2 ≤ j + 1 - l.length := by omega
        have hnil : (l ++ ['\n']).drop (j + 1) = [] := by
          rw [hd2]
          rcases this with h1 | h1 <;> · rw [List.drop_eq_nil_of_le (by simp; omega)]
        rw [tryJ_succ_of_drop_nil hnil]
        exact ih (by omega) h
      · have heq : l.length = j + 1 := by omega
        have hone : (l ++ ['\n']).drop (j + 1) = ['\n'] := by
          rw [hd2, heq]; simp
        rw [tryJ_succ_of_stop hone (by rfl)]
        exact ih (by omega) h
    · have hlt : j + 1 < l.length := by
        by_contra hge
        push_neg at hge
        rw [List.drop_eq_nil_of_le hge] at hd
        cases hd
      have hd2 : (l ++ ['\n']).drop (j + 1) = c :: (cs ++ ['\n']) := by
        rw [List.drop_append_eq_append_drop, hd,
          Nat.sub_eq_zero_of_le (by omega), List.drop_zero]
        rfl
      by_cases hc : isStop c
      · rw [tryJ_succ_of_stop hd hc] at h
        rw [tryJ_succ_of_stop hd2 hc]
        exact ih (by omega) h
      · have hc' : isStop c = false := by simpa using hc
        rw [tryJ_succ_of_nonstop hd hc'] at h
        rw [tryJ_succ_of_nonstop hd2 hc']
        have hnl : (fun x => !(isStop x)) '\n' = false := by rfl
        have e1 : c :: (cs ++ ['\n']) = (c :: cs) ++ ['\n'] := rfl
        simp only [Option.some.injEq, Prod.mk.injEq] at h
        obtain ⟨hw, ha, hr⟩ := h
        rw [e1, takeWhile_append_single hnl, dropWhile_append_single hnl,
          List.take_append_of_le_length (by omega)]
        simp [hw, ha, hr]

theorem tryJ_append_nl_none {l : Str} :
    ∀ {j}, j ≤ l.length → tryJ l j = none → tryJ (l ++ ['\n']) j = none := by
  intro j
  induction j with
  | zero => intro _ _; rfl
  | succ j ih =>
    intro hj h
    rcases hd : l.drop (j + 1) with _ | ⟨c, cs⟩
    · rw [tryJ_succ_of_drop_nil hd] at h
      have hle : l.length ≤ j + 1 := List.drop_eq_nil_iff.mp hd
      have hd2 : (l ++ ['\n']).drop (j + 1) =
          List.drop (j + 1 - l.length) ['\n'] := by
        rw [List.drop_append_eq_append_drop, List.drop_eq_nil_of_le hle,
          List.nil_append]
      rcases Nat.lt_or_ge l.length (j + 1) with hlt | hge
      · have hnil : (l ++ ['\n']).drop (j + 1) = [] := by
          rw [hd2, List.drop_eq_nil_of_le (by simp; omega)]
        rw [tryJ_succ_of_drop_nil hnil]
        exact ih (by omega) h
      · have heq : l.length = j + 1 := by omega
        have hone : (l ++ ['\n']).drop (j + 1) = ['\n'] := by
          rw [hd2, heq]; simp
        rw [tryJ_succ_of_stop hone (by rfl)]
        exact ih (by omega) h
    · have hlt : j + 1 < l.length := by
        by_contra hge
        push_neg at hge
        rw [List.drop_eq_nil_of_le hge] at hd
        cases hd
      have hd2 : (l ++ ['\n']).drop (j + 1) = c :: (cs ++ ['\n']) := by
        rw [List.drop_append_eq_append_drop, hd,
          Nat.sub_eq_zero_of_le (by omega), List.drop_zero]
        rfl
      by_cases hc : isStop c
      · rw [tryJ_succ_of_stop hd hc] at h
        rw [tryJ_succ_of_stop hd2 hc]
        exact ih (by omega) h
      · have hc' : isStop c = false := by simpa using hc
        rw [tryJ_succ_of_nonstop hd hc'] at h
        cases h

theorem matchWsArgs_append_nl_some {l ws args rest : Str}
    (h : matchWsArgs l = some (ws, args, rest)) :
    matchWsArgs (l ++ ['\n']) = some (ws, args, rest ++ ['\n']) := by
  unfold matchWsArgs at h ⊢
  by_cases hall : l.takeWhile isPySpace = l
  · have htw : (l ++ ['\n']).takeWhile isPySpace = l ++ ['\n'] := by
      rw [List.takeWhile_append_of_pos (fun a ha => by
        rw [← hall] at ha; exact List.mem_takeWhile_imp ha)]
      rfl
    rw [htw]
    have hk : (l.takeWhile isPySpace).length = l.length := by rw [hall]
    rw [hk] at h
    have hstep : tryJ (l ++ ['\n']) (l ++ ['\n']).length =
        tryJ (l ++ ['\n']) ((l ++ ['\n']).length - 1) := by
      have hlen : (l ++ ['\n']).length = l.length + 1 := by simp
      rw [hlen]
      exact tryJ_succ_of_drop_nil (List.drop_eq_nil_of_le (by simp))
    rw [hstep]
    have hlen : (l ++ ['\n']).length - 1 = l.length := by simp
    rw [hlen]
    exact tryJ_append_nl_some (le_refl _) h
  · have htw : (l ++ ['\n']).takeWhile isPySpace = l.takeWhile isPySpace := by
      rw [List.takeWhile_append, if_neg]
      intro hlen
      exact hall (takeWhile_eq_self_iff_length.mpr hlen)
    rw [htw]
    exact tryJ_append_nl_some ((List.takeWhile_sublist _).length_le) h

theorem matchWsArgs_append_nl_none {l : Str}
    (h : matchWsArgs l = none) :
    matchWsArgs (l ++ ['\n']) = none := by
  unfold matchWsArgs at h ⊢
  by_cases hall : l.takeWhile isPySpace = l
  · have htw : (l ++ ['\n']).takeWhile isPySpace = l ++ ['\n'] := by
      rw [List.takeWhile_append_of_pos (fun a ha => by
        rw [← hall] at ha; exact List.mem_takeWhile_imp ha)]
      rfl
    rw [htw]
    have hk : (l.takeWhile isPySpace).length = l.length := by rw [hall]
    rw [hk] at h
    have hstep : tryJ (l ++ ['\n']) (l ++ ['\n']).length =
        tryJ (l ++ ['\n']) ((l ++ ['\n']).length - 1) := by
      have hlen : (l ++ ['\n']).length = l.length + 1 := by simp
      rw [hlen]
      exact tryJ_succ_of_drop_nil (List.drop_eq_nil_of_le (by simp))
    rw [hstep]
    have hlen : (l ++ ['\n']).length - 1 = l.length := by simp
    rw [hlen]
    exact tryJ_append_nl_none (le_refl _) h
  · have htw : (l ++ ['\n']).takeWhile isPySpace = l.takeWhile isPySpace := by
      rw [List.takeWhile_append, if_neg]
      intro hlen
      exact hall (takeWhile_eq_self_iff_length.mpr hlen)
    rw [htw]
    exact tryJ_append_nl_none ((List.takeWhile_sublist _).length_le) h

theorem matchBinding_nil : matchBinding [] = none := rfl

theorem matchBinding_single (c : Char) : matchBinding [c] = none := rfl

theorem matchBinding_cons_neg {c0 c : Char} {rest : Str}
    (h : ¬(c0 = '&' ∧ isIdentStart c = true)) :
    matchBinding (c0 :: c :: rest) = none := by
  rw [matchBinding, if_neg h]

theorem matchBinding_cons_pos_some {c0 c : Char} {rest ws args r2 : Str}
    (h : c0 = '&' ∧ isIdentStart c = true)
    (hm : matchWsArgs (rest.dropWhile isIdentChar) = some (ws, args, r2)) :
    matchBinding (c0 :: c :: rest) =
      some (c :: rest.takeWhile isIdentChar, ws, args, r2) := by
  rw [matchBinding, if_pos h, hm]

theorem matchBinding_cons_pos_none {c0 c : Char} {rest : Str}
    (h : c0 = '&' ∧ isIdentStart c = true)
    (hm : matchWsArgs (rest.dropWhile isIdentChar) = none) :
    matchBinding (c0 :: c :: rest) = none := by
  rw [matchBinding, if_pos h, hm]

theorem matchBinding_append_nl_some {l kw ws args rest : Str}
    (h : matchBinding l = some (kw, ws, args, rest)) :
    matchBinding (l ++ ['\n']) = some (kw, ws, args, rest ++ ['\n']) := by
  match l with
  | [] => rw [matchBinding_nil] at h; cases h
  | [c] => rw [matchBinding_single] at h; cases h
  | c0 :: c :: r =>
    by_cases hc : c0 = '&' ∧ isIdentStart c = true
    · rcases hm : matchWsArgs (r.dropWhile isIdentChar) with _ | ⟨⟨ws', args', r2⟩⟩
      · rw [matchBinding_cons_pos_none hc hm] at h; cases h
      · rw [matchBinding_cons_pos_some hc hm] at h
        simp only [Option.some.injEq, Prod.mk.injEq] at h
        obtain ⟨hkw, hws, hargs, hrest⟩ := h
        have hid : isIdentChar '\n' = false := rfl
        have e1 : (c0 :: c :: r) ++ ['\n'] = c0 :: c :: (r ++ ['\n']) := rfl
        rw [e1, matchBinding_cons_pos_some hc
          (by rw [dropWhile_append_single hid]
              exact matchWsArgs_append_nl_some hm),
          takeWhile_append_single hid]
        simp [hkw, hws, hargs, ← hrest]
    · rw [matchBinding_cons_neg hc] at h; cases h

theorem matchBinding_append_nl_none {l : Str}
    (h : matchBinding l = none) :
    matchBinding (l ++ ['\n']) = none := by
  match l with
  | [] =>
    have : ([] : Str) ++ ['\n'] = ['\n'] := rfl
    rw [this, matchBinding_single]
  | [c] =>
    have e1 : [c] ++ ['\n'] = c :: '\n' :: [] := rfl
    rw [e1, matchBinding_cons_neg]
    rintro ⟨-, hident⟩
    cases hident
  | c0 :: c :: r =>
    by_cases hc : c0 = '&' ∧ isIdentStart c = true
    · rcases hm : matchWsArgs (r.dropWhile isIdentChar) with _ | ⟨⟨ws', args', r2⟩⟩
      · have hid : isIdentChar '\n' = false := rfl
        have e1 : (c0 :: c :: r) ++ ['\n'] = c0 :: c :: (r ++ ['\n']) := rfl
        rw [e1, matchBinding_cons_pos_none hc
          (by rw [dropWhile_append_single hid]
              exact matchWsArgs_append_nl_none hm)]
      · rw [matchBinding_cons_pos_some hc hm] at h; cases h
    · have e1 : (c0 :: c :: r) ++ ['\n'] = c0 :: c :: (r ++ ['\n']) := rfl
      rw [e1, matchBinding_cons_neg hc]

theorem subAll_append_nl (rules : List (Str × Int)) (cmap : List (Str × Str)) :
    ∀ n l, l.length ≤ n →
      subAll rules cmap (l ++ ['\n']) = subAll rules cmap l ++ ['\n'] := by
  intro n
  induction n with
  | zero =>
    intro l hl
    have : l = [] := List.length_eq_zero.mp (Nat.le_zero.mp hl)
    subst this
    rw [List.nil_append, subAll_nil,
      subAll_cons_none rules cmap (matchBinding_single '\n'), subAll_nil]
    rfl
  | succ n ih =>
    intro l hl
    rcases hm : matchBinding l with _ | ⟨⟨kw, ws, args, rest⟩⟩
    · rcases l with _ | ⟨c, cs⟩
      · rw [List.nil_append, subAll_nil,
          subAll_cons_none rules cmap (matchBinding_single '\n'), subAll_nil]
        rfl
      · have hm' : matchBinding (c :: (cs ++ ['\n'])) = none := by
          have e1 : (c :: cs) ++ ['\n'] = c :: (cs ++ ['\n']) := rfl
          rw [← e1]
          exact matchBinding_append_nl_none hm
        have e1 : (c :: cs) ++ ['\n'] = c :: (cs ++ ['\n']) := rfl
        rw [e1, subAll_cons_none rules cmap hm', subAll_cons_none rules cmap hm]
        simp only [List.length_cons] at hl
        rw [ih cs (by omega)]
        rfl
    · have hm' := matchBinding_append_nl_some hm
      rw [subAll_match rules cmap hm', subAll_match rules cmap hm]
      have hrest := matchBinding_rest_length_lt hm
      rw [ih rest (by omega), List.append_assoc]

theorem pySplitAux_mem_chars :
    ∀ (s acc : Str) (t : Str), t ∈ pySplitAux s acc →
      ∀ c ∈ t, c ∈ s ∨ c ∈ acc := by
  intro s
  induction s with
  | nil =>
    intro acc t ht c hc
    unfold pySplitAux at ht
    by_cases hacc : acc = []
    · rw [if_pos hacc] at ht; cases ht
    · rw [if_neg hacc] at ht
      have he : t = acc.reverse := List.mem_singleton.mp ht
      right
      exact List.mem_reverse.mp (he ▸ hc)
  | cons ch cs ih =>
    intro acc t ht c hc
    unfold pySplitAux at ht
    by_cases hsp : isPySpace ch
    · rw [if_pos hsp] at ht
      by_cases hacc : acc = []
      · rw [if_pos hacc] at ht
        rcases ih [] t ht c hc with h | h
        · left; exact List.mem_cons_of_mem ch h
        · cases h
      · rw [if_neg hacc, List.mem_cons] at ht
        rcases ht with ht | ht
        · right
          exact List.mem_reverse.mp (ht ▸ hc)
        · rcases ih [] t ht c hc with h | h
          · left; exact List.mem_cons_of_mem ch h
          · cases h
    · rw [if_neg hsp] at ht
      rcases ih (ch :: acc) t ht c hc with h | h
      · left; exact List.mem_cons_of_mem ch h
      · rw [List.mem_cons] at h
        rcases h with h | h
        · left; rw [h]; exact List.mem_cons_self ch cs
        · right; exact h

theorem pySplit_mem_chars {s t : Str} (ht : t ∈ pySplit s) {c : Char}
    (hc : c ∈ t) : c ∈ s := by
  rcases pySplitAux_mem_chars s [] t ht c hc with h | h
  · exact h
  · cases h

theorem mem_intersperse {α : Type} {sep : α} :
    ∀ {ts : List α} {x : α}, x ∈ ts.intersperse sep → x = sep ∨ x ∈ ts := by
  intro ts
  induction ts with
  | nil => intro x hx; cases hx
  | cons a ts ih =>
    intro x hx
    rcases ts with _ | ⟨b, ts'⟩
    · simp at hx
      right; simp [hx]
    · rw [List.intersperse_cons₂] at hx
      simp only [List.mem_cons] at hx
      rcases hx with hx | hx | hx
      · right; simp [hx]
      · left; exact hx
      · rcases ih hx with h | h
        · left; exact h
        · right; exact List.mem_cons_of_mem a h

theorem mem_joinSpace {ts : List Str} {c : Char} (hc : c ∈ joinSpace ts) :
    c = ' ' ∨ ∃ t ∈ ts, c ∈ t := by
  unfold joinSpace at hc
  rw [List.mem_flatten] at hc
  obtain ⟨l, hl, hcl⟩ := hc
  rcases mem_intersperse hl with h | h
  · left; rw [h] at hcl; simpa using hcl
  · right; exact ⟨l, h, hcl⟩

theorem repl_empty_args {rules : List (Str × Int)} {cmap : List (Str × Str)}
    {binding ws argsStr : Str} {sel : Int}
    (hrule : (rules.find? (fun p => p.1 = binding)).map (·.2) = some sel)
    (he : pySplit argsStr = []) :
    repl rules cmap binding ws argsStr = '&' :: (binding ++ ws ++ argsStr) := by
  rw [repl_rule_some hrule]
  simp [he]

theorem repl_out_of_range {rules : List (Str × Int)} {cmap : List (Str × Str)}
    {binding ws argsStr : Str} {sel : Int}
    (hrule : (rules.find? (fun p => p.1 = binding)).map (·.2) = some sel)
    (hne : pySplit argsStr ≠ [])
    (hout : (if 0 ≤ sel then sel else ((pySplit argsStr).length : Int) + sel) < 0
      ∨ ((pySplit argsStr).length : Int)
          ≤ (if 0 ≤ sel then sel else ((pySplit argsStr).length : Int) + sel)) :
    repl rules cmap binding ws argsStr = '&' :: (binding ++ ws ++ argsStr) := by
  rw [repl_rule_some hrule]
  simp only [if_neg hne, if_pos hout]

theorem repl_in_range {rules : List (Str × Int)} {cmap : List (Str × Str)}
    {binding ws argsStr : Str} {sel : Int}
    (hrule : (rules.find? (fun p => p.1 = binding)).map (·.2) = some sel)
    (hne : pySplit argsStr ≠ [])
    (hin : ¬((if 0 ≤ sel then sel else ((pySplit argsStr).length : Int) + sel) < 0
      ∨ ((pySplit argsStr).length : Int)
          ≤ (if 0 ≤ sel then sel else ((pySplit argsStr).length : Int) + sel))) :
    repl rules cmap binding ws argsStr =
      '&' :: (binding ++ ' ' :: joinSpace
        (match lookupMap cmap ((pySplit argsStr).getD
            (if 0 ≤ sel then sel else ((pySplit argsStr).length : Int) + sel).toNat []) with
         | some tgt => (pySplit argsStr).set
            (if 0 ≤ sel then sel else ((pySplit argsStr).length : Int) + sel).toNat tgt
         | none => pySplit argsStr)) := by
  rw [repl_rule_some hrule]
  simp only [if_neg hne, if_neg hin]

/-- Every character of the replacement emitted by `repl` is a character of
the matched region, a space, or a character of some conversion-map value. -/
theorem repl_chars {rules : List (Str × Int)} {cmap : List (Str × Str)}
    {binding ws argsStr : Str} {c : Char}
    (hc : c ∈ repl rules cmap binding ws argsStr) :
    c = '&' ∨ c = ' ' ∨ c ∈ binding ∨ c ∈ ws ∨ c ∈ argsStr
      ∨ ∃ p ∈ cmap, c ∈ p.2 := by
  rcases hr : (rules.find? (fun p => p.1 = binding)).map (·.2) with _ | sel
  · rw [repl_rule_none hr, List.mem_cons] at hc
    rcases hc with hc | hc
    · left; exact hc
    · simp only [List.mem_append] at hc
      tauto
  · by_cases he : pySplit argsStr = []
    · rw [repl_empty_args hr he, List.mem_cons] at hc
      rcases hc with hc | hc
      · left; exact hc
      · simp only [List.mem_append] at hc
        tauto
    · by_cases hout : (if 0 ≤ sel then sel else ((pySplit argsStr).length : Int) + sel) < 0
        ∨ ((pySplit argsStr).length : Int)
            ≤ (if 0 ≤ sel then sel else ((pySplit argsStr).length : Int) + sel)
      · rw [repl_out_of_range hr he hout, List.mem_cons] at hc
        rcases hc with hc | hc
        · left; exact hc
        · simp only [List.mem_append] at hc
          tauto
      · rw [repl_in_range hr he hout, List.mem_cons] at hc
        rcases hc with hc | hc
        · left; exact hc
        · rw [List.mem_append] at hc
          rcases hc with hc | hc
          · right; right; left; exact hc
          · rw [List.mem_cons] at hc
            rcases hc with hc | hc
            · right; left; exact hc
            · rcases mem_joinSpace hc with h | ⟨t, ht, hct⟩
              · right; left; exact h
              · rcases hli : lookupMap cmap ((pySplit argsStr).getD
                    (if 0 ≤ sel then sel
                     else ((pySplit argsStr).length : Int) + sel).toNat []) with _ | tgt
                · simp only [hli] at ht
                  right; right; right; right; left
                  exact pySplit_mem_chars ht hct
                · simp only [hli] at ht
                  rcases List.mem_or_eq_of_mem_set ht with h | h
                  · right; right; right; right; left
                    exact pySplit_mem_chars h hct
                  · obtain ⟨p, hp, _, hpv⟩ := lookupMap_mem hli
                    right; right; right; right; right
                    exact ⟨p, hp, by rw [hpv, ← h]; exact hct⟩

theorem tryJ_decomp {l w a r : Str} :
    ∀ {j}, tryJ l j = some (w, a, r) →
      ∃ i, 1 ≤ i ∧ i ≤ j ∧ w = l.take i
        ∧ a = (l.drop i).takeWhile (fun x => !(isStop x))
        ∧ r = (l.drop i).dropWhile (fun x => !(isStop x))
        ∧ (∃ c cs, l.drop i = c :: cs ∧ isStop c = false)
        ∧ ∀ j', i < j' → j' ≤ j →
            l.drop j' = [] ∨ ∃ c cs, l.drop j' = c :: cs ∧ isStop c = true := by
  intro j
  induction j with
  | zero => intro h; simp [tryJ] at h
  | succ j ih =>
    intro h
    rcases hd : l.drop (j + 1) with _ | ⟨c, cs⟩
    · rw [tryJ_succ_of_drop_nil hd] at h
      obtain ⟨i, h1, h2, h3, h4, h5, h6, hfail⟩ := ih h
      refine ⟨i, h1, Nat.le_succ_of_le h2, h3, h4, h5, h6, ?_⟩
      intro j' hj1 hj2
      rcases Nat.lt_or_ge j' (j + 1) with hlt | hge
      · exact hfail j' hj1 (by omega)
      · have : j' = j + 1 := by omega
        subst this
        exact Or.inl hd
    · by_cases hc : isStop c
      · rw [tryJ_succ_of_stop hd hc] at h
        obtain ⟨i, h1, h2, h3, h4, h5, h6, hfail⟩ := ih h
        refine ⟨i, h1, Nat.le_succ_of_le h2, h3, h4, h5, h6, ?_⟩
        intro j' hj1 hj2
        rcases Nat.lt_or_ge j' (j + 1) with hlt | hge
        · exact hfail j' hj1 (by omega)
        · have : j' = j + 1 := by omega
          subst this
          exact Or.inr ⟨c, cs, hd, hc⟩
      · have hc' : isStop c = false := by simpa using hc
        rw [tryJ_succ_of_nonstop hd hc'] at h
        simp only [Option.some.injEq, Prod.mk.injEq] at h
        obtain ⟨hw, ha, hr⟩ := h
        exact ⟨j + 1, by omega, le_refl _, hw.symm, by rw [hd, ha],
          by rw [hd, hr], ⟨c, cs, hd, hc'⟩, fun j' hj1 hj2 => by omega⟩

/-- Inversion of a successful `\s+([^,;>\n]+)` match: the input decomposes as
whitespace ++ argument text ++ rest, the whitespace part is non-empty
whitespace, the argument part is a non-empty stop-free run, and the rest is
empty or begins with a stop character. -/
theorem matchWsArgs_decomp {m ws args rest : Str}
    (h : matchWsArgs m = some (ws, args, rest)) :
    m = ws ++ args ++ rest
    ∧ ws ≠ [] ∧ (∀ x ∈ ws, isPySpace x = true)
    ∧ args ≠ [] ∧ (∀ x ∈ args, isStop x = false)
    ∧ (rest = [] ∨ ∃ c cs, rest = c :: cs ∧ isStop c = true) := by
  unfold matchWsArgs at h
  obtain ⟨i, h1, h2, hw, ha, hr, ⟨c, cs, hd, hc⟩, -⟩ := tryJ_decomp h
  have hne : m.drop i ≠ [] := by rw [hd]; simp
  have hilt : i < m.length := by
    by_contra hge
    push_neg at hge
    exact hne (List.drop_eq_nil_of_le hge)
  refine ⟨?_, ?_, ?_, ?_, ?_, ?_⟩
  · rw [hw, ha, hr, List.append_assoc]
    rw [List.takeWhile_append_dropWhile, List.take_append_drop]
  · rw [hw]
    intro hnil
    have := congrArg List.length hnil
    simp only [List.length_take, List.length_nil] at this
    omega
  · intro x hx
    rw [hw] at hx
    have hpre : m.take i = (m.takeWhile isPySpace).take i := by
      conv_lhs => rw [← List.takeWhile_append_dropWhile (p := isPySpace) (l := m)]
      rw [List.take_append_of_le_length h2]
    rw [hpre] at hx
    exact List.mem_takeWhile_imp (List.take_subset i _ hx)
  · rw [ha, hd, List.takeWhile_cons_of_pos (by simpa using hc)]
    simp
  · intro x hx
    rw [ha] at hx
    have := List.mem_takeWhile_imp hx
    simpa using this
  · rw [hr]
    rcases hdw : (m.drop i).dropWhile (fun x => !(isStop x)) with _ | ⟨d, ds⟩
    · left; rfl
    · right
      refine ⟨d, ds, rfl, ?_⟩
      have hh := List.head?_dropWhile_not (fun x => !(isStop x)) (m.drop i)
      rw [hdw] at hh
      simpa using hh

/-- Inversion of a successful binding match: the matched text is
`'&' ++ keyword ++ whitespace ++ argument text`, the keyword is an identifier
(identifier-start head, identifier characters after), the whitespace part is
non-empty whitespace, the argument part is a non-empty stop-free run, and the
rest is empty or begins with a stop character. -/
theorem matchBinding_decomp {l kw ws args rest : Str}
    (h : matchBinding l = some (kw, ws, args, rest)) :
    l = '&' :: (kw ++ ws ++ args ++ rest)
    ∧ (∃ c kt, kw = c :: kt ∧ isIdentStart c = true
        ∧ ∀ x ∈ kt, isIdentChar x = true)
    ∧ ws ≠ [] ∧ (∀ x ∈ ws, isPySpace x = true)
    ∧ args ≠ [] ∧ (∀ x ∈ args, isStop x = false)
    ∧ (rest = [] ∨ ∃ c cs, rest = c :: cs ∧ isStop c = true) := by
  match l with
  | [] => rw [matchBinding_nil] at h; cases h
  | [c] => rw [matchBinding_single c] at h; cases h
  | c0 :: c :: r =>
    by_cases hcnd : c0 = '&' ∧ isIdentStart c = true
    · rcases hm : matchWsArgs (r.dropWhile isIdentChar) with _ | ⟨⟨ws', args', r2⟩⟩
      · rw [matchBinding_cons_pos_none hcnd hm] at h; cases h
      · rw [matchBinding_cons_pos_some hcnd hm] at h
        simp only [Option.some.injEq, Prod.mk.injEq] at h
        obtain ⟨hkw, hws, hargs, hrest⟩ := h
        obtain ⟨hm1, hm2, hm3, hm4, hm5, hm6⟩ := matchWsArgs_decomp hm
        refine ⟨?_, ⟨c, r.takeWhile isIdentChar, hkw.symm, hcnd.2,
            fun x hx => List.mem_takeWhile_imp hx⟩, ?_, ?_, ?_, ?_, ?_⟩
        · have hr2 : r = r.takeWhile isIdentChar ++ (ws' ++ args' ++ r2) := by
            rw [← hm1, List.takeWhile_append_dropWhile]
          rw [hcnd.1, ← hkw, ← hws, ← hargs, ← hrest]
          conv_lhs => rw [hr2]
          simp
        · rw [← hws]; exact hm2
        · rw [← hws]; exact hm3
        · rw [← hargs]; exact hm4
        · rw [← hargs]; exact hm5
        · rw [← hrest]; exact hm6
    · rw [matchBinding_cons_neg hcnd] at h; cases h

theorem subAll_no_nl (rules : List (Str × Int)) (cmap : List (Str × Str))
    (hv : ∀ p ∈ cmap, '\n' ∉ p.2) :
    ∀ n l, l.length ≤ n → '\n' ∉ l → '\n' ∉ subAll rules cmap l := by
  intro n
  induction n with
  | zero =>
    intro l hl _
    have he : l = [] := List.length_eq_zero.mp (Nat.le_zero.mp hl)
    subst he
    rw [subAll_nil]
    simp
  | succ n ih =>
    intro l hl hnl
    rcases hm : matchBinding l with _ | ⟨⟨kw, ws, args, rest⟩⟩
    · rcases l with _ | ⟨c, cs⟩
      · rw [subAll_nil]; simp
      · rw [subAll_cons_none rules cmap hm]
        intro hmem
        rw [List.mem_cons] at hmem
        rcases hmem with h | h
        · exact hnl (h ▸ List.mem_cons_self c cs)
        · simp only [List.length_cons] at hl
          exact ih cs (by omega)
            (fun hx => hnl (List.mem_cons_of_mem c hx)) h
    · rw [subAll_match rules cmap hm]
      obtain ⟨hdec, -, -, -, -, -, -⟩ := matchBinding_decomp hm
      intro hmem
      rw [List.mem_append] at hmem
      rcases hmem with h | h
      · rcases repl_chars h with h1 | h1 | h1 | h1 | h1 | ⟨p, hp, h1⟩
        · cases h1
        · cases h1
        · exact hnl (by rw [hdec]; simp [h1])
        · exact hnl (by rw [hdec]; simp [h1])
        · exact hnl (by rw [hdec]; simp [h1])
        · exact hv p hp h1
      · have hrl := matchBinding_rest_length_lt hm
        exact ih rest (by omega)
          (fun hx => hnl (by rw [hdec]; simp [hx])) h

/-- C10: the rewriter neither inserts nor removes newline characters on a
line: for a line body containing no newline, rewriting the body with a
trailing newline appended yields the rewritten body with that same newline
appended (a match never spans the final newline), and the rewritten body
itself contains no newline; hence per-line conversion preserves the body's
line count. -/
theorem c10_newline_preserved :
    ∀ b : Str, '\n' ∉ b →
      convert_keymap_line (b ++ ['\n']) create_conversion_map
          = convert_keymap_line b create_conversion_map ++ ['\n']
      ∧ '\n' ∉ convert_keymap_line b create_conversion_map := by
  intro b hb
  constructor
  · exact subAll_append_nl BINDING_KEY_ARG_RULES create_conversion_map
      b.length b (le_refl _)
  · exact subAll_no_nl BINDING_KEY_ARG_RULES create_conversion_map
      (by decide) b.length b (le_refl _) hb

theorem c10_newline_preserved_witness :
    convert_keymap_line ("&kp AMPERSAND".data ++ ['\n']) create_conversion_map
        = "&kp JP_AMPERSAND".data ++ ['\n']
    ∧ '\n' ∉ convert_keymap_line "&kp AMPERSAND".data create_conversion_map := by
  have h := c10_newline_preserved "&kp AMPERSAND".data (by decide)
  exact ⟨h.1.trans (by decide), h.2⟩

theorem identStart_ne_amp {c : Char} (h : isIdentStart c = true) : c ≠ '&' :=
  fun he => absurd (he ▸ h) (by decide)

theorem identChar_ne_amp {c : Char} (h : isIdentChar c = true) : c ≠ '&' :=
  fun he => absurd (he ▸ h) (by decide)

theorem pySpace_ne_amp {c : Char} (h : isPySpace c = true) : c ≠ '&' :=
  fun he => absurd (he ▸ h) (by decide)

theorem stop_ne_amp {c : Char} (h : isStop c = true) : c ≠ '&' :=
  fun he => absurd (he ▸ h) (by decide)

theorem pySpace_cases {c : Char} (h : isPySpace c = true) :
    c = ' ' ∨ c = '\t' ∨ c = '\n' ∨ c = '\r' ∨ c = '\u000B' ∨ c = '\u000C' := by
  simp only [isPySpace, Bool.or_eq_true, decide_eq_true_eq] at h
  tauto

theorem pySpace_not_ident {c : Char} (h : isPySpace c = true) :
    isIdentChar c = false := by
  rcases pySpace_cases h with h1 | h1 | h1 | h1 | h1 | h1 <;> subst h1 <;> decide

/-- `repl` always emits a marker-headed replacement. -/
theorem repl_head (rules : List (Str × Int)) (cmap : List (Str × Str))
    (binding ws argsStr : Str) :
    ∃ v, repl rules cmap binding ws argsStr = '&' :: v := by
  rcases hr : (rules.find? (fun p => p.1 = binding)).map (·.2) with _ | sel
  · exact ⟨_, repl_rule_none hr⟩
  · by_cases he : pySplit argsStr = []
    · exact ⟨_, repl_empty_args hr he⟩
    · by_cases hout : (if 0 ≤ sel then sel else ((pySplit argsStr).length : Int) + sel) < 0
        ∨ ((pySplit argsStr).length : Int)
            ≤ (if 0 ≤ sel then sel else ((pySplit argsStr).length : Int) + sel)
      · exact ⟨_, repl_out_of_range hr he hout⟩
      · exact ⟨_, repl_in_range hr he hout⟩

theorem matchBinding_none_of_head_ne {c : Char} {t : Str} (h : c ≠ '&') :
    matchBinding (c :: t) = none := by
  rcases t with _ | ⟨d, t'⟩
  · exact matchBinding_single c
  · exact matchBinding_cons_neg (fun hc => h hc.1)

/-- The scanner copies a character that cannot start a match. -/
theorem subAll_cons_ne {c : Char} {t : Str} (rules : List (Str × Int))
    (cmap : List (Str × Str)) (h : c ≠ '&') :
    subAll rules cmap (c :: t) = c :: subAll rules cmap t :=
  subAll_cons_none rules cmap (matchBinding_none_of_head_ne h)

/-- The scanner preserves the head character of its input. -/
theorem subAll_head? (rules : List (Str × Int)) (cmap : List (Str × Str)) :
    ∀ t : Str, (subAll rules cmap t).head? = t.head? := by
  intro t
  rcases t with _ | ⟨c, cs⟩
  · rw [subAll_nil]
  · rcases hm : matchBinding (c :: cs) with _ | ⟨⟨kw, ws, args, rest⟩⟩
    · rw [subAll_cons_none rules cmap hm]
      rfl
    · obtain ⟨hdec, -⟩ := matchBinding_decomp hm
      have hc : c = '&' := by
        have := congrArg List.head? hdec
        simpa using this
      rw [subAll_match rules cmap hm]
      obtain ⟨v, hv⟩ := repl_head rules cmap kw ws args
      rw [hv, hc]
      rfl

/-- The scanner copies any marker-free prefix verbatim. -/
theorem subAll_copy_front (rules : List (Str × Int)) (cmap : List (Str × Str)) :
    ∀ (P r : Str), (∀ ch ∈ P, ch ≠ '&') →
      subAll rules cmap (P ++ r) = P ++ subAll rules cmap r := by
  intro P
  induction P with
  | nil => intro r _; rfl
  | cons c P' ih =>
    intro r hP
    have hc : c ≠ '&' := hP c (List.mem_cons_self c P')
    have e1 : (c :: P') ++ r = c :: (P' ++ r) := rfl
    rw [e1, subAll_cons_ne rules cmap hc,
      ih r (fun ch hch => hP ch (List.mem_cons_of_mem c hch))]
    rfl

/-- Agreement of two strings up to and including their first marker
character: the marker-free prefixes coincide and either both strings are
marker-free or both continue with a marker. -/
def ampAgree (t u : Str) : Prop :=
  t.takeWhile (fun c => !(c = '&')) = u.takeWhile (fun c => !(c = '&'))
  ∧ (t.dropWhile (fun c => !(c = '&')) = [] ↔ u.dropWhile (fun c => !(c = '&')) = [])

theorem ampAgree_subAll (rules : List (Str × Int)) (cmap : List (Str × Str)) :
    ∀ n t, t.length ≤ n → ampAgree t (subAll rules cmap t) := by
  intro n
  induction n with
  | zero =>
    intro t ht
    have he : t = [] := List.length_eq_zero.mp (Nat.le_zero.mp ht)
    subst he
    exact ⟨rfl, Iff.rfl⟩
  | succ n ih =>
    intro t ht
    rcases t with _ | ⟨c, cs⟩
    · exact ⟨rfl, Iff.rfl⟩
    · by_cases hc : c = '&'
      · subst hc
        have hh := subAll_head? rules cmap ('&' :: cs)
        rcases hu : subAll rules cmap ('&' :: cs) with _ | ⟨d, u'⟩
        · rw [hu] at hh; cases hh
        · rw [hu] at hh
          have hd : d = '&' := by simpa using hh
          subst hd
          have hta : ∀ x : Str, ('&' :: x).takeWhile (fun ch => !(ch = '&')) = [] :=
            fun x => List.takeWhile_cons_of_neg (by decide)
          have hda : ∀ x : Str,
              ('&' :: x).dropWhile (fun ch => !(ch = '&')) = '&' :: x :=
            fun x => List.dropWhile_cons_of_neg (by decide)
          refine ⟨?_, ?_⟩
          · rw [hta, hta]
          · rw [hda, hda]
            simp
      · rw [subAll_cons_ne rules cmap hc]
        simp only [List.length_cons] at ht
        obtain ⟨h1, h2⟩ := ih cs (by omega)
        have htc : ∀ x : Str, (c :: x).takeWhile (fun ch => !(ch = '&'))
            = c :: x.takeWhile (fun ch => !(ch = '&')) :=
          fun x => List.takeWhile_cons_of_pos (by simpa using hc)
        have hdc : ∀ x : Str, (c :: x).dropWhile (fun ch => !(ch = '&'))
            = x.dropWhile (fun ch => !(ch = '&')) :=
          fun x => List.dropWhile_cons_of_pos (by simpa using hc)
        exact ⟨by rw [htc, htc, h1], by rw [hdc, hdc]; exact h2⟩

theorem ampAgree_getElem? {t u : Str} (h : ampAgree t u) :
    ∀ i, i ≤ (t.takeWhile (fun c => !(c = '&'))).length → t[i]? = u[i]? := by
  obtain ⟨h1, h2⟩ := h
  intro i hi
  have ht : t = t.takeWhile (fun c => !(c = '&'))
      ++ t.dropWhile (fun c => !(c = '&')) :=
    (List.takeWhile_append_dropWhile _ _).symm
  have hu : u = t.takeWhile (fun c => !(c = '&'))
      ++ u.dropWhile (fun c => !(c = '&')) := by
    conv_lhs => rw [← List.takeWhile_append_dropWhile
      (p := fun c => !(c = '&')) (l := u)]
    rw [h1]
  rcases Nat.lt_or_ge i (t.takeWhile (fun c => !(c = '&'))).length with hlt | hge
  · conv_lhs => rw [ht]
    conv_rhs => rw [hu]
    rw [List.getElem?_append_left hlt, List.getElem?_append_left hlt]
  · rcases hdt : t.dropWhile (fun c => !(c = '&')) with _ | ⟨d, dt⟩
    · have het : t = t.takeWhile (fun c => !(c = '&')) := by
        conv_lhs => rw [ht]
        rw [hdt, List.append_nil]
      have heu : u = t.takeWhile (fun c => !(c = '&')) := by
        conv_lhs => rw [hu]
        rw [h2.mp hdt, List.append_nil]
      rw [het.trans heu.symm]
    · rcases hdu : u.dropWhile (fun c => !(c = '&')) with _ | ⟨e, du⟩
      · exact absurd (h2.mpr hdu) (by rw [hdt]; simp)
      · have hdamp : d = '&' := by
          have hh := List.head?_dropWhile_not (fun c => !(c = '&')) t
          rw [hdt] at hh
          simpa using hh
        have heamp : e = '&' := by
          have hh := List.head?_dropWhile_not (fun c => !(c = '&')) u
          rw [hdu] at hh
          simpa using hh
        conv_lhs => rw [ht]
        conv_rhs => rw [hu]
        rw [List.getElem?_append_right hge, List.getElem?_append_right hge,
          hdt, hdu, hdamp, heamp]
        have hz : i - (t.takeWhile (fun c => !(c = '&'))).length = 0 := by omega
        rw [hz]
        simp

theorem takeWhile_length_le_append {p : Char → Bool} (A r : Str) :
    ((A ++ r).takeWhile p).length ≤ A.length + (r.takeWhile p).length := by
  rw [List.takeWhile_append]
  split
  · rw [List.length_append]
  · have := (List.takeWhile_sublist (l := A) p).length_le
    omega

theorem takeWhile_length_mono {p q : Char → Bool}
    (hpq : ∀ c, p c = true → q c = true) :
    ∀ r : Str, (r.takeWhile p).length ≤ (r.takeWhile q).length := by
  intro r
  induction r with
  | nil => simp
  | cons c cs ih =>
    by_cases hp : p c
    · rw [List.takeWhile_cons_of_pos hp, List.takeWhile_cons_of_pos (hpq c hp)]
      simp only [List.length_cons]
      omega
    · rw [List.takeWhile_cons_of_neg hp]
      simp

theorem takeWhile_length_agree {p : Char → Bool} :
    ∀ (l l' : Str) (N : Nat), (∀ i, i ≤ N → l[i]? = l'[i]?) →
      (l.takeWhile p).length ≤ N →
      (l'.takeWhile p).length = (l.takeWhile p).length := by
  intro l
  induction l with
  | nil =>
    intro l' N hag _
    have h0 : (l' : Str)[0]? = none := by
      rw [← hag 0 (Nat.zero_le N)]
      simp
    have : l' = [] := by
      cases l' with
      | nil => rfl
      | cons c cs => simp at h0
    subst this
    rfl
  | cons c cs ih =>
    intro l' N hag hle
    have h0 : l'[0]? = some c := by
      rw [← hag 0 (Nat.zero_le N)]
      simp
    rcases l' with _ | ⟨c', cs'⟩
    · simp at h0
    · have hc' : c' = c := by simpa using h0
      subst hc'
      by_cases hp : p c'
      · rw [List.takeWhile_cons_of_pos hp] at hle ⊢
        rw [List.takeWhile_cons_of_pos hp]
        simp only [List.length_cons] at hle ⊢
        have hshift : ∀ i, i ≤ N - 1 → cs[i]? = cs'[i]? := by
          intro i hiN
          have := hag (i + 1) (by omega)
          simpa using this
        rw [ih cs' (N - 1) hshift (by omega)]
      · rw [List.takeWhile_cons_of_neg hp, List.takeWhile_cons_of_neg hp]

theorem tryJ_none_inversion {l : Str} :
    ∀ {j}, tryJ l j = none → ∀ j', 1 ≤ j' → j' ≤ j →
      l.drop j' = [] ∨ ∃ c cs, l.drop j' = c :: cs ∧ isStop c = true := by
  intro j
  induction j with
  | zero => intro _ j' h1 h2; omega
  | succ j ih =>
    intro h j' h1 h2
    rcases hd : l.drop (j + 1) with _ | ⟨c, cs⟩
    · rw [tryJ_succ_of_drop_nil hd] at h
      rcases Nat.lt_or_ge j' (j + 1) with hlt | hge
      · exact ih h j' h1 (by omega)
      · have : j' = j + 1 := by omega
        subst this
        exact Or.inl hd
    · by_cases hc : isStop c
      · rw [tryJ_succ_of_stop hd hc] at h
        rcases Nat.lt_or_ge j' (j + 1) with hlt | hge
        · exact ih h j' h1 (by omega)
        · have : j' = j + 1 := by omega
          subst this
          exact Or.inr ⟨c, cs, hd, hc⟩
      · have hc' : isStop c = false := by simpa using hc
        rw [tryJ_succ_of_nonstop hd hc'] at h
        cases h

theorem tryJ_step_down {l : Str} :
    ∀ (j1 j2 : Nat), j2 ≤ j1 →
      (∀ j', j2 < j' → j' ≤ j1 →
        l.drop j' = [] ∨ ∃ c cs, l.drop j' = c :: cs ∧ isStop c = true) →
      tryJ l j1 = tryJ l j2 := by
  intro j1
  induction j1 with
  | zero =>
    intro j2 h2 _
    have : j2 = 0 := by omega
    subst this
    rfl
  | succ j ih =>
    intro j2 h2 hfail
    by_cases hj : j2 = j + 1
    · subst hj; rfl
    · have hstep : tryJ l (j + 1) = tryJ l j := by
        rcases hfail (j + 1) (by omega) (le_refl _) with hnil | ⟨c, cs, hd, hc⟩
        · exact tryJ_succ_of_drop_nil hnil
        · exact tryJ_succ_of_stop hd hc
      rw [hstep]
      exact ih j2 (by omega) (fun j' ha hb => hfail j' ha (by omega))

theorem pySpace_imp_ne_amp :
    ∀ c : Char, isPySpace c = true → (!(c = '&')) = true := by
  intro c h
  simpa using pySpace_ne_amp h

theorem drop_fail_transfer {x y : Str} {j : Nat}
    (hxy : x[j]? = y[j]?)
    (hx : x.drop j = [] ∨ ∃ c cs, x.drop j = c :: cs ∧ isStop c = true) :
    y.drop j = [] ∨ ∃ c cs, y.drop j = c :: cs ∧ isStop c = true := by
  rcases hx with hx | ⟨c, cs, hx, hc⟩
  · left
    have h2 : (y.drop j).head? = none := by
      rw [List.head?_drop, ← hxy, ← List.head?_drop, hx]
      rfl
    exact List.head?_eq_none_iff.mp h2
  · right
    have h2 : (y.drop j).head? = some c := by
      rw [List.head?_drop, ← hxy, ← List.head?_drop, hx]
      rfl
    rcases hyd : y.drop j with _ | ⟨d, ds⟩
    · rw [hyd] at h2; cases h2
    · rw [hyd] at h2
      have hdc : d = c := by simpa using h2
      exact ⟨d, ds, rfl, hdc ▸ hc⟩

/-- Replacing the remainder after a successful `\s+([^,;>\n]+)` match by any
string that agrees with it up to the first marker character reproduces the
same match, with the new remainder as rest. -/
theorem matchWsArgs_stable {m ws args rest rest' : Str}
    (h : matchWsArgs m = some (ws, args, rest))
    (hagree : ampAgree rest rest') :
    matchWsArgs (ws ++ args ++ rest') = some (ws, args, rest') := by
  obtain ⟨hm1, hm2, hm3, hm4, hm5, hm6⟩ := matchWsArgs_decomp h
  unfold matchWsArgs at h ⊢
  obtain ⟨i, hi1, hik, hw, ha, hr, ⟨c, cs, hd, hc⟩, hfail⟩ := tryJ_decomp h
  have hdm : m.drop i ≠ [] := by rw [hd]; simp
  have hilt : i < m.length := by
    by_contra hge
    push_neg at hge
    exact hdm (List.drop_eq_nil_of_le hge)
  have hwlen : ws.length = i := by
    rw [hw, List.length_take]
    omega
  have hmA : m = (ws ++ args) ++ rest := by
    conv_lhs => rw [← List.take_append_drop i m]
    rw [← hw, List.append_assoc]
    congr 1
    rw [ha, hr]
    exact (List.takeWhile_append_dropWhile _ _).symm
  have hArest' : ws ++ args ++ rest' = (ws ++ args) ++ rest' := by
    rw [List.append_assoc]
  have hAg : ∀ q, q ≤ (ws ++ args).length
        + (rest.takeWhile (fun ch => !(ch = '&'))).length →
      m[q]? = (ws ++ args ++ rest')[q]? := by
    intro q hq
    rw [hmA, hArest']
    rcases Nat.lt_or_ge q (ws ++ args).length with hlt | hge
    · rw [List.getElem?_append_left hlt, List.getElem?_append_left hlt]
    · rw [List.getElem?_append_right hge, List.getElem?_append_right hge]
      exact ampAgree_getElem? hagree (q - (ws ++ args).length) (by omega)
  have hkN : (m.takeWhile isPySpace).length ≤ (ws ++ args).length
      + (rest.takeWhile (fun ch => !(ch = '&'))).length := by
    have h1 : (m.takeWhile isPySpace).length
        ≤ (ws ++ args).length + (rest.takeWhile isPySpace).length := by
      conv_lhs => rw [hmA]
      exact takeWhile_length_le_append (ws ++ args) rest
    have h2 : (rest.takeWhile isPySpace).length
        ≤ (rest.takeWhile (fun ch => !(ch = '&'))).length :=
      takeWhile_length_mono pySpace_imp_ne_amp rest
    omega
  have hk' : ((ws ++ args ++ rest').takeWhile isPySpace).length
      = (m.takeWhile isPySpace).length :=
    takeWhile_length_agree m (ws ++ args ++ rest') _ hAg hkN
  rw [hk']
  have hstep : tryJ (ws ++ args ++ rest') (m.takeWhile isPySpace).length
      = tryJ (ws ++ args ++ rest') i := by
    apply tryJ_step_down _ i hik
    intro j' hj1 hj2
    refine drop_fail_transfer (hAg j' (by omega)) ?_
    exact hfail j' hj1 hj2
  rw [hstep]
  have hdrop' : (ws ++ args ++ rest').drop i = args ++ rest' := by
    rw [List.append_assoc, List.drop_left' hwlen]
  have hargs_cons : args = c :: cs.takeWhile (fun x => !(isStop x)) := by
    rw [ha, hd, List.takeWhile_cons_of_pos (by simpa using hc)]
  have hrest'_shape : rest' = [] ∨ ∃ r0 rs, rest' = r0 :: rs ∧ isStop r0 = true := by
    rcases hm6 with hre | ⟨r0, rs, hre, hr0⟩
    · left
      obtain ⟨ha1, ha2⟩ := hagree
      rw [hre] at ha1 ha2
      have ht' : rest'.takeWhile (fun ch => !(ch = '&')) = [] := by
        rw [← ha1]
        rfl
      have hd' : rest'.dropWhile (fun ch => !(ch = '&')) = [] := ha2.mp rfl
      have hsplit := List.takeWhile_append_dropWhile (fun ch => !(ch = '&')) rest'
      rw [ht', hd'] at hsplit
      exact hsplit.symm
    · right
      have h0 : rest[0]? = rest'[0]? :=
        ampAgree_getElem? hagree 0 (Nat.zero_le _)
      rw [hre] at h0
      rcases hre' : rest' with _ | ⟨r0', rs'⟩
      · rw [hre'] at h0; simp at h0
      · rw [hre'] at h0
        have hrr : r0 = r0' := by simpa using h0
        exact ⟨r0', rs', rfl, hrr ▸ hr0⟩
  have hargs_all : ∀ x ∈ args, (fun x => !(isStop x)) x = true := by
    intro x hx
    simpa using hm5 x hx
  have htw : (args ++ rest').takeWhile (fun x => !(isStop x)) = args := by
    rw [List.takeWhile_append_of_pos hargs_all]
    rcases hrest'_shape with hre | ⟨r0, rs, hre, hr0⟩
    · rw [hre]; simp
    · rw [hre, List.takeWhile_cons_of_neg (by simp [hr0])]
      simp
  have hdw : (args ++ rest').dropWhile (fun x => !(isStop x)) = rest' := by
    rw [List.dropWhile_append]
    have hde : (args.dropWhile (fun x => !(isStop x))).isEmpty := by
      rw [List.dropWhile_eq_nil_iff.mpr hargs_all]
      rfl
    rw [if_pos hde]
    rcases hrest'_shape with hre | ⟨r0, rs, hre, hr0⟩
    · rw [hre]; simp
    · rw [hre, List.dropWhile_cons_of_neg (by simp [hr0])]
  rcases i with _ | i0
  · omega
  · have hd2 : (ws ++ args ++ rest').drop (i0 + 1)
        = c :: (cs.takeWhile (fun x => !(isStop x)) ++ rest') := by
      rw [hdrop', hargs_cons]
      rfl
    rw [tryJ_succ_of_nonstop hd2 hc]
    have htake : (ws ++ args ++ rest').take (i0 + 1) = ws := by
      rw [List.append_assoc, List.take_left' hwlen]
    have hcons : c :: (cs.takeWhile (fun x => !(isStop x)) ++ rest')
        = args ++ rest' := by
      rw [hargs_cons]
      rfl
    rw [htake, hcons, htw, hdw]

theorem matchWsArgs_none_agree {m m' : Str}
    (h : matchWsArgs m = none) (hagree : ampAgree m m') :
    matchWsArgs m' = none := by
  unfold matchWsArgs at h ⊢
  have hAg : ∀ q, q ≤ (m.takeWhile (fun ch => !(ch = '&'))).length →
      m[q]? = m'[q]? := ampAgree_getElem? hagree
  have hkN : (m.takeWhile isPySpace).length
      ≤ (m.takeWhile (fun ch => !(ch = '&'))).length :=
    takeWhile_length_mono pySpace_imp_ne_amp m
  have hk' : (m'.takeWhile isPySpace).length = (m.takeWhile isPySpace).length :=
    takeWhile_length_agree m m' _ hAg hkN
  rw [hk']
  have hstep : tryJ m' (m.takeWhile isPySpace).length = tryJ m' 0 := by
    apply tryJ_step_down _ 0 (Nat.zero_le _)
    intro j' hj1 hj2
    refine drop_fail_transfer (hAg j' (by omega)) ?_
    exact tryJ_none_inversion h j' (by omega) hj2
  rw [hstep]
  rfl

theorem pySplitAux_tokens :
    ∀ (s acc : Str), (∀ ch ∈ acc, isPySpace ch = false) →
      ∀ t ∈ pySplitAux s acc, t ≠ [] ∧ ∀ ch ∈ t, isPySpace ch = false := by
  intro s
  induction s with
  | nil =>
    intro acc hacc t ht
    unfold pySplitAux at ht
    by_cases he : acc = []
    · rw [if_pos he] at ht; cases ht
    · rw [if_neg he] at ht
      have hte : t = acc.reverse := List.mem_singleton.mp ht
      subst hte
      exact ⟨by simpa using he, fun ch hch => hacc ch (List.mem_reverse.mp hch)⟩
  | cons c cs ih =>
    intro acc hacc t ht
    unfold pySplitAux at ht
    by_cases hsp : isPySpace c
    · rw [if_pos hsp] at ht
      by_cases he : acc = []
      · rw [if_pos he] at ht
        exact ih [] (by simp) t ht
      · rw [if_neg he, List.mem_cons] at ht
        rcases ht with ht | ht
        · subst ht
          exact ⟨by simpa using he, fun ch hch => hacc ch (List.mem_reverse.mp hch)⟩
        · exact ih [] (by simp) t ht
    · rw [if_neg hsp] at ht
      refine ih (c :: acc) ?_ t ht
      intro ch hch
      rw [List.mem_cons] at hch
      rcases hch with hch | hch
      · subst hch; simpa using hsp
      · exact hacc ch hch

theorem pySplit_tokens_ok {s t : Str} (ht : t ∈ pySplit s) :
    t ≠ [] ∧ ∀ ch ∈ t, isPySpace ch = false :=
  pySplitAux_tokens s [] (by simp) t ht

theorem joinSpace_single (t0 : Str) : joinSpace [t0] = t0 := by
  simp [joinSpace]

theorem joinSpace_cons₂ (t0 t1 : Str) (ts : List Str) :
    joinSpace (t0 :: t1 :: ts) = t0 ++ ' ' :: joinSpace (t1 :: ts) := by
  unfold joinSpace
  rw [List.intersperse_cons₂]
  simp

theorem pySplitAux_nil (acc : Str) :
    pySplitAux [] acc = if acc = [] then [] else [acc.reverse] := rfl

theorem pySplitAux_cons (c : Char) (s acc : Str) :
    pySplitAux (c :: s) acc =
      if isPySpace c then
        (if acc = [] then pySplitAux s [] else acc.reverse :: pySplitAux s [])
      else pySplitAux s (c :: acc) := rfl

theorem pySplitAux_skip_token {P : Str}
    (hP : ∀ ch ∈ P, isPySpace ch = false) :
    ∀ (r acc : Str), pySplitAux (P ++ r) acc = pySplitAux r (P.reverse ++ acc) := by
  induction P with
  | nil => intro r acc; simp
  | cons c P' ih =>
    intro r acc
    have hc : isPySpace c = false := hP c (List.mem_cons_self c P')
    have e1 : (c :: P') ++ r = c :: (P' ++ r) := rfl
    rw [e1, pySplitAux_cons, if_neg (by simp [hc]),
      ih (fun ch hch => hP ch (List.mem_cons_of_mem c hch)) r (c :: acc)]
    congr 1
    simp

theorem pySplit_joinSpace :
    ∀ ts : List Str, ts ≠ [] →
      (∀ tok ∈ ts, tok ≠ [] ∧ ∀ ch ∈ tok, isPySpace ch = false) →
      pySplit (joinSpace ts) = ts := by
  intro ts
  induction ts with
  | nil => intro h; exact absurd rfl h
  | cons t0 ts' ih =>
    intro _ htoks
    obtain ⟨ht0_ne, ht0_ws⟩ := htoks t0 (List.mem_cons_self t0 ts')
    rcases ts' with _ | ⟨t1, ts''⟩
    · rw [joinSpace_single]
      show pySplitAux t0 [] = [t0]
      have h1 := pySplitAux_skip_token ht0_ws [] []
      rw [List.append_nil] at h1
      rw [h1, pySplitAux_nil, if_neg (by simpa using ht0_ne)]
      simp
    · rw [joinSpace_cons₂]
      show pySplitAux (t0 ++ ' ' :: joinSpace (t1 :: ts'')) [] = t0 :: t1 :: ts''
      rw [pySplitAux_skip_token ht0_ws (' ' :: joinSpace (t1 :: ts'')) [],
        pySplitAux_cons, if_pos (by decide), if_neg (by simpa using ht0_ne)]
      rw [show pySplitAux (joinSpace (t1 :: ts'')) []
          = pySplit (joinSpace (t1 :: ts'')) from rfl]
      rw [ih (by simp) (fun tok htok => htoks tok (List.mem_cons_of_mem t0 htok))]
      simp

theorem matchWsArgs_build {q t : Str} {q0 : Char} {qs : Str}
    (hq : q = q0 :: qs) (hq0_sp : isPySpace q0 = false)
    (hq_ns : ∀ x ∈ q, isStop x = false)
    (ht : t = [] ∨ ∃ c cs, t = c :: cs ∧ isStop c = true) :
    matchWsArgs (' ' :: (q ++ t)) = some ([' '], q, t) := by
  unfold matchWsArgs
  have hk : ((' ' :: (q ++ t)).takeWhile isPySpace).length = 1 := by
    rw [List.takeWhile_cons_of_pos (by decide), hq]
    have e1 : (q0 :: qs) ++ t = q0 :: (qs ++ t) := rfl
    rw [e1, List.takeWhile_cons_of_neg (by simp [hq0_sp])]
    rfl
  rw [hk]
  have hq0_ns : isStop q0 = false := hq_ns q0 (by rw [hq]; exact List.mem_cons_self _ _)
  have hd : (' ' :: (q ++ t)).drop 1 = q0 :: (qs ++ t) := by
    rw [hq]
    rfl
  rw [tryJ_succ_of_nonstop hd hq0_ns]
  have hq_all : ∀ x ∈ q, (fun x => !(isStop x)) x = true := by
    intro x hx
    simpa using hq_ns x hx
  have htw : (q ++ t).takeWhile (fun x => !(isStop x)) = q := by
    rw [List.takeWhile_append_of_pos hq_all]
    rcases ht with hte | ⟨c, cs, hte, hcs⟩
    · rw [hte]; simp
    · rw [hte, List.takeWhile_cons_of_neg (by simp [hcs])]
      simp
  have hdw : (q ++ t).dropWhile (fun x => !(isStop x)) = t := by
    rw [List.dropWhile_append,
      if_pos (by rw [List.dropWhile_eq_nil_iff.mpr hq_all]; rfl)]
    rcases ht with hte | ⟨c, cs, hte, hcs⟩
    · rw [hte]; simp
    · rw [hte, List.dropWhile_cons_of_neg (by simp [hcs])]
  have e2 : q0 :: (qs ++ t) = q ++ t := by rw [hq]; rfl
  rw [show ((' ' :: (q ++ t)).take 1) = [' '] from rfl, e2, htw, hdw]

theorem matchBinding_of_parts {c : Char} {kt ws args rest2 : Str}
    (hc : isIdentStart c = true) (hkt : ∀ x ∈ kt, isIdentChar x = true)
    (hws : ws ≠ []) (hws_sp : ∀ x ∈ ws, isPySpace x = true)
    (hm : matchWsArgs (ws ++ args ++ rest2) = some (ws, args, rest2)) :
    matchBinding ('&' :: ((c :: kt) ++ ws ++ args ++ rest2))
      = some (c :: kt, ws, args, rest2) := by
  have e1 : '&' :: ((c :: kt) ++ ws ++ args ++ rest2)
      = '&' :: c :: (kt ++ (ws ++ args ++ rest2)) := by simp
  rw [e1]
  obtain ⟨w0, ws', hws0⟩ := List.exists_cons_of_ne_nil hws
  have hw0 : isIdentChar w0 = false :=
    pySpace_not_ident (hws_sp w0 (by rw [hws0]; exact List.mem_cons_self _ _))
  have e2 : ws ++ args ++ rest2 = w0 :: (ws' ++ args ++ rest2) := by
    rw [hws0]
    rfl
  have htkt : (kt ++ (ws ++ args ++ rest2)).takeWhile isIdentChar = kt := by
    rw [List.takeWhile_append_of_pos hkt, e2,
      List.takeWhile_cons_of_neg (by simp [hw0])]
    simp
  have hdkt : (kt ++ (ws ++ args ++ rest2)).dropWhile isIdentChar
      = ws ++ args ++ rest2 := by
    rw [List.dropWhile_append,
      if_pos (by rw [List.dropWhile_eq_nil_iff.mpr hkt]; rfl), e2,
      List.dropWhile_cons_of_neg (by simp [hw0])]
  rw [matchBinding_cons_pos_some ⟨rfl, hc⟩ (by rw [hdkt]; exact hm), htkt]

/-- Replacing the remainder after a successful binding match by any string
agreeing with it up to the first marker reproduces the same match. -/
theorem matchBinding_stable {l kw ws args rest rest' : Str}
    (h : matchBinding l = some (kw, ws, args, rest))
    (hagree : ampAgree rest rest') :
    matchBinding ('&' :: (kw ++ ws ++ args ++ rest'))
      = some (kw, ws, args, rest') := by
  match l with
  | [] => rw [matchBinding_nil] at h; cases h
  | [c] => rw [matchBinding_single c] at h; cases h
  | c0 :: c :: r =>
    by_cases hcnd : c0 = '&' ∧ isIdentStart c = true
    · rcases hm : matchWsArgs (r.dropWhile isIdentChar) with _ | ⟨⟨ws1, args1, r2⟩⟩
      · rw [matchBinding_cons_pos_none hcnd hm] at h; cases h
      · rw [matchBinding_cons_pos_some hcnd hm] at h
        simp only [Option.some.injEq, Prod.mk.injEq] at h
        obtain ⟨hkw, hws, hargs, hrest⟩ := h
        subst hkw
        subst hws
        subst hargs
        subst hrest
        obtain ⟨hm1, hm2, hm3, -, -, -⟩ := matchWsArgs_decomp hm
        have hst := matchWsArgs_stable hm hagree
        exact matchBinding_of_parts hcnd.2
          (fun x hx => List.mem_takeWhile_imp hx) hm2 hm3 hst
    · rw [matchBinding_cons_neg hcnd] at h; cases h

/-- A reassembled region `&kw ++ ' ' ++ joined-tokens`, followed by a stop
character or end of input, matches back exactly as itself. -/
theorem matchBinding_reassembled {c : Char} {kt t : Str} {ts : List Str}
    (hc : isIdentStart c = true) (hkt : ∀ x ∈ kt, isIdentChar x = true)
    (hts_ne : ts ≠ [])
    (htoks : ∀ tok ∈ ts, tok ≠ [] ∧ ∀ ch ∈ tok,
      isPySpace ch = false ∧ isStop ch = false)
    (ht : t = [] ∨ ∃ d ds, t = d :: ds ∧ isStop d = true) :
    matchBinding ('&' :: ((c :: kt) ++ ' ' :: (joinSpace ts ++ t)))
      = some (c :: kt, [' '], joinSpace ts, t) := by
  rcases ts with _ | ⟨t0, ts'⟩
  · exact absurd rfl hts_ne
  · obtain ⟨ht0_ne, ht0_chars⟩ := htoks t0 (List.mem_cons_self t0 ts')
    obtain ⟨q0, t0s, ht0⟩ := List.exists_cons_of_ne_nil ht0_ne
    have hjq : ∃ u, joinSpace (t0 :: ts') = q0 :: u := by
      rcases ts' with _ | ⟨t1, ts''⟩
      · rw [joinSpace_single, ht0]
        exact ⟨t0s, rfl⟩
      · rw [joinSpace_cons₂, ht0]
        exact ⟨t0s ++ ' ' :: joinSpace (t1 :: ts''), rfl⟩
    obtain ⟨u, hju⟩ := hjq
    have hq0 : q0 ∈ t0 := by rw [ht0]; exact List.mem_cons_self _ _
    have hq0_sp : isPySpace q0 = false := (ht0_chars q0 hq0).1
    have hjs_ns : ∀ x ∈ joinSpace (t0 :: ts'), isStop x = false := by
      intro x hx
      rcases mem_joinSpace hx with hsp | ⟨tok, htok, hxtok⟩
      · subst hsp; rfl
      · exact ((htoks tok htok).2 x hxtok).2
    have hmw := matchWsArgs_build hju hq0_sp hjs_ns ht
    have e3 : '&' :: ((c :: kt) ++ ' ' :: (joinSpace (t0 :: ts') ++ t))
        = '&' :: ((c :: kt) ++ [' '] ++ joinSpace (t0 :: ts') ++ t) := by
      simp
    rw [e3]
    exact matchBinding_of_parts hc hkt (by simp)
      (by intro x hx; simp only [List.mem_singleton] at hx; subst hx; rfl)
      (by simpa using hmw)

/-- If no binding matches at a position, none matches there after the tail
has been rewritten by the scanner. -/
theorem matchBinding_none_stable {c : Char} {cs : Str}
    (rules : List (Str × Int)) (cmap : List (Str × Str))
    (h : matchBinding (c :: cs) = none) :
    matchBinding (c :: subAll rules cmap cs) = none := by
  by_cases hc : c = '&'
  · subst hc
    rcases cs with _ | ⟨d, cs'⟩
    · rw [subAll_nil]
      exact matchBinding_single '&'
    · by_cases hd : isIdentStart d
      · rcases hm : matchWsArgs (cs'.dropWhile isIdentChar) with _ | ⟨⟨ws, args, r2⟩⟩
        · have hdd : d ≠ '&' := identStart_ne_amp hd
          rw [subAll_cons_ne rules cmap hdd]
          have hsplit : cs' = cs'.takeWhile isIdentChar ++ cs'.dropWhile isIdentChar :=
            (List.takeWhile_append_dropWhile _ _).symm
          have hcopy : subAll rules cmap cs'
              = cs'.takeWhile isIdentChar
                ++ subAll rules cmap (cs'.dropWhile isIdentChar) := by
            conv_lhs => rw [hsplit]
            exact subAll_copy_front rules cmap _ _
              (fun ch hch => identChar_ne_amp (List.mem_takeWhile_imp hch))
          rw [hcopy]
          have hhead : (subAll rules cmap (cs'.dropWhile isIdentChar)).head?
              = (cs'.dropWhile isIdentChar).head? := subAll_head? rules cmap _
          have htkt : (cs'.takeWhile isIdentChar
              ++ subAll rules cmap (cs'.dropWhile isIdentChar)).takeWhile isIdentChar
              = cs'.takeWhile isIdentChar := by
            rw [List.takeWhile_append_of_pos
              (fun a ha => List.mem_takeWhile_imp ha)]
            rcases hsub : subAll rules cmap (cs'.dropWhile isIdentChar) with _ | ⟨e, es⟩
            · simp
            · rw [hsub] at hhead
              rcases hdws : cs'.dropWhile isIdentChar with _ | ⟨e', es'⟩
              · rw [hdws] at hhead; simp at hhead
              · rw [hdws] at hhead
                have hee : e = e' := by simpa using hhead
                have hne : isIdentChar e' = false := by
                  have hh := List.head?_dropWhile_not isIdentChar cs'
                  rw [hdws] at hh
                  simpa using hh
                rw [List.takeWhile_cons_of_neg (by simp [hee ▸ hne])]
                simp
          have hdkt : (cs'.takeWhile isIdentChar
              ++ subAll rules cmap (cs'.dropWhile isIdentChar)).dropWhile isIdentChar
              = subAll rules cmap (cs'.dropWhile isIdentChar) := by
            rw [List.dropWhile_append,
              if_pos (by rw [List.dropWhile_eq_nil_iff.mpr
                (fun a ha => List.mem_takeWhile_imp ha)]; rfl)]
            rcases hsub : subAll rules cmap (cs'.dropWhile isIdentChar) with _ | ⟨e, es⟩
            · rfl
            · rw [hsub] at hhead
              rcases hdws : cs'.dropWhile isIdentChar with _ | ⟨e', es'⟩
              · rw [hdws] at hhead; simp at hhead
              · rw [hdws] at hhead
                have hee : e = e' := by simpa using hhead
                have hne : isIdentChar e' = false := by
                  have hh := List.head?_dropWhile_not isIdentChar cs'
                  rw [hdws] at hh
                  simpa using hh
                rw [List.dropWhile_cons_of_neg (by simp [hee ▸ hne])]
          have hagree : ampAgree (cs'.dropWhile isIdentChar)
              (subAll rules cmap (cs'.dropWhile isIdentChar)) :=
            ampAgree_subAll rules cmap (cs'.dropWhile isIdentChar).length _ (le_refl _)
          exact matchBinding_cons_pos_none ⟨rfl, hd⟩
            (by rw [hdkt]; exact matchWsArgs_none_agree hm hagree)
        · rw [matchBinding_cons_pos_some ⟨rfl, hd⟩ hm] at h
          cases h
      · have hh := subAll_head? rules cmap (d :: cs')
        rcases hu : subAll rules cmap (d :: cs') with _ | ⟨e, u⟩
        · rw [hu] at hh; simp at hh
        · rw [hu] at hh
          have hed : e = d := by simpa using hh
          rw [hed]
          exact matchBinding_cons_neg (fun hcc => hd hcc.2)
  · exact matchBinding_none_of_head_ne hc

theorem subAll_group0_stable (rules : List (Str × Int)) (cmap : List (Str × Str))
    {l kw ws ast rest : Str}
    (hm : matchBinding l = some (kw, ws, ast, rest))
    (hg : repl rules cmap kw ws ast = '&' :: (kw ++ ws ++ ast))
    (hsub : subAll rules cmap (subAll rules cmap rest) = subAll rules cmap rest) :
    subAll rules cmap (repl rules cmap kw ws ast ++ subAll rules cmap rest)
      = repl rules cmap kw ws ast ++ subAll rules cmap rest := by
  have hagree : ampAgree rest (subAll rules cmap rest) :=
    ampAgree_subAll rules cmap rest.length rest (le_refl _)
  rw [hg]
  have e1 : ('&' :: (kw ++ ws ++ ast)) ++ subAll rules cmap rest
      = '&' :: (kw ++ ws ++ ast ++ subAll rules cmap rest) := by simp
  rw [e1, subAll_match rules cmap (matchBinding_stable hm hagree), hg, hsub]
  simp

theorem repl_in_range_fixed {rules : List (Str × Int)} {cmap : List (Str × Str)}
    {kw : Str} {sel : Int} {q : List Str}
    (hrule : (rules.find? (fun p => p.1 = kw)).map (·.2) = some sel)
    (hq_ne : q ≠ [])
    (htoks : ∀ tok ∈ q, tok ≠ [] ∧ ∀ ch ∈ tok, isPySpace ch = false)
    (hout : ¬((if 0 ≤ sel then sel else (q.length : Int) + sel) < 0
      ∨ (q.length : Int) ≤ (if 0 ≤ sel then sel else (q.length : Int) + sel)))
    (hmiss : lookupMap cmap
      (q.getD (if 0 ≤ sel then sel else (q.length : Int) + sel).toNat []) = none) :
    repl rules cmap kw [' '] (joinSpace q) = '&' :: (kw ++ ' ' :: joinSpace q) := by
  have hsplit2 : pySplit (joinSpace q) = q := pySplit_joinSpace q hq_ne htoks
  rw [repl_in_range hrule (by rw [hsplit2]; exact hq_ne) (by rw [hsplit2]; exact hout)]
  rw [hsplit2]
  simp only [hmiss]

/-- The scanner is idempotent whenever the conversion map is well-formed:
every value is a non-empty token containing neither whitespace nor stop
characters, and no value is itself a key. -/
theorem subAll_idem (rules : List (Str × Int)) (cmap : List (Str × Str))
    (hgood : ∀ p ∈ cmap, p.2 ≠ []
      ∧ (∀ ch ∈ p.2, isPySpace ch = false ∧ isStop ch = false)
      ∧ lookupMap cmap p.2 = none) :
    ∀ n l, l.length ≤ n →
      subAll rules cmap (subAll rules cmap l) = subAll rules cmap l := by
  intro n
  induction n with
  | zero =>
    intro l hl
    have he : l = [] := List.length_eq_zero.mp (Nat.le_zero.mp hl)
    subst he
    rw [subAll_nil, subAll_nil]
  | succ n ih =>
    intro l hl
    rcases hm : matchBinding l with _ | ⟨⟨kw, ws, ast, rest⟩⟩
    · rcases l with _ | ⟨c, cs⟩
      · rw [subAll_nil, subAll_nil]
      · rw [subAll_cons_none rules cmap hm,
          subAll_cons_none rules cmap (matchBinding_none_stable rules cmap hm)]
        simp only [List.length_cons] at hl
        rw [ih cs (by omega)]
    · rw [subAll_match rules cmap hm]
      obtain ⟨hdec, ⟨c, kt, hkw, hcid, hktid⟩, hwsne, hwssp, hastne, hastns,
        hrestshape⟩ := matchBinding_decomp hm
      have hrl := matchBinding_rest_length_lt hm
      have hsubrest : subAll rules cmap (subAll rules cmap rest)
          = subAll rules cmap rest := ih rest (by omega)
      rcases hrule : (rules.find? (fun p => p.1 = kw)).map (·.2) with _ | sel
      · exact subAll_group0_stable rules cmap hm (repl_rule_none hrule) hsubrest
      · by_cases he : pySplit ast = []
        · exact subAll_group0_stable rules cmap hm (repl_empty_args hrule he)
            hsubrest
        · by_cases hout : (if 0 ≤ sel then sel
              else ((pySplit ast).length : Int) + sel) < 0
            ∨ ((pySplit ast).length : Int)
                ≤ (if 0 ≤ sel then sel else ((pySplit ast).length : Int) + sel)
          · exact subAll_group0_stable rules cmap hm
              (repl_out_of_range hrule he hout) hsubrest
          · rw [repl_in_range hrule he hout]
            have hIlt : (if 0 ≤ sel then sel
                else ((pySplit ast).length : Int) + sel).toNat
                < (pySplit ast).length := by
              push_neg at hout
              omega
            have htokA : ∀ tok ∈ pySplit ast, tok ≠ [] ∧ ∀ ch ∈ tok,
                isPySpace ch = false ∧ isStop ch = false := by
              intro tok htok
              obtain ⟨h1, h2⟩ := pySplit_tokens_ok htok
              exact ⟨h1, fun ch hch =>
                ⟨h2 ch hch, hastns ch (pySplit_mem_chars htok hch)⟩⟩
            have htshape : subAll rules cmap rest = []
                ∨ ∃ d ds, subAll rules cmap rest = d :: ds ∧ isStop d = true := by
              rcases hrestshape with hre | ⟨r0, rs, hre, hr0⟩
              · left
                rw [hre, subAll_nil]
              · have hh2 : (subAll rules cmap rest).head? = some r0 := by
                  rw [subAll_head? rules cmap rest, hre]
                  rfl
                rcases hsub2 : subAll rules cmap rest with _ | ⟨d, ds⟩
                · rw [hsub2] at hh2; cases hh2
                · rw [hsub2] at hh2
                  have hdr : d = r0 := by simpa using hh2
                  exact Or.inr ⟨d, ds, rfl, hdr ▸ hr0⟩
            rcases hli : lookupMap cmap ((pySplit ast).getD
                (if 0 ≤ sel then sel
                 else ((pySplit ast).length : Int) + sel).toNat []) with _ | tgt
            · simp only [hli]
              have hargs2ne : pySplit ast ≠ [] := he
              have e2 : ('&' :: (kw ++ ' ' :: joinSpace (pySplit ast)))
                    ++ subAll rules cmap rest
                  = '&' :: ((c :: kt)
                    ++ ' ' :: (joinSpace (pySplit ast) ++ subAll rules cmap rest)) := by
                rw [hkw]
                simp
              rw [e2, subAll_match rules cmap
                (matchBinding_reassembled hcid hktid hargs2ne htokA htshape)]
              rw [repl_in_range_fixed (by rw [← hkw]; exact hrule) hargs2ne
                (fun tok htok => ⟨(htokA tok htok).1,
                  fun ch hch => ((htokA tok htok).2 ch hch).1⟩) hout hli]
              rw [hsubrest, ← hkw]
              simp
            · simp only [hli]
              have hlen2 : ((pySplit ast).set
                  (if 0 ≤ sel then sel
                   else ((pySplit ast).length : Int) + sel).toNat tgt).length
                  = (pySplit ast).length := by simp
              have hargs2ne : (pySplit ast).set
                  (if 0 ≤ sel then sel
                   else ((pySplit ast).length : Int) + sel).toNat tgt ≠ [] := by
                intro hz
                have := congrArg List.length hz
                rw [hlen2] at this
                exact he (List.length_eq_zero.mp this)
              obtain ⟨p, hp, hpk, hpv⟩ := lookupMap_mem hli
              obtain ⟨hv1, hv2, hv3⟩ := hgood p hp
              have htokA2 : ∀ tok ∈ (pySplit ast).set
                  (if 0 ≤ sel then sel
                   else ((pySplit ast).length : Int) + sel).toNat tgt,
                  tok ≠ [] ∧ ∀ ch ∈ tok,
                    isPySpace ch = false ∧ isStop ch = false := by
                intro tok htok
                rcases List.mem_or_eq_of_mem_set htok with h1 | h1
                · exact htokA tok h1
                · subst h1
                  rw [← hpv]
                  exact ⟨hv1, hv2⟩
              have e2 : ('&' :: (kw ++ ' ' :: joinSpace ((pySplit ast).set
                    (if 0 ≤ sel then sel
                     else ((pySplit ast).length : Int) + sel).toNat tgt)))
                    ++ subAll rules cmap rest
                  = '&' :: ((c :: kt) ++ ' ' :: (joinSpace ((pySplit ast).set
                    (if 0 ≤ sel then sel
                     else ((pySplit ast).length : Int) + sel).toNat tgt)
                    ++ subAll rules cmap rest)) := by
                rw [hkw]
                simp
              rw [e2, subAll_match rules cmap
                (matchBinding_reassembled hcid hktid hargs2ne htokA2 htshape)]
              have hgetD : ((pySplit ast).set
                  (if 0 ≤ sel then sel
                   else ((pySplit ast).length : Int) + sel).toNat tgt).getD
                  (if 0 ≤ sel then sel
                   else (((pySplit ast).set
                     (if 0 ≤ sel then sel
                      else ((pySplit ast).length : Int) + sel).toNat tgt).length : Int)
                     + sel).toNat [] = tgt := by
                rw [hlen2]
                simp [List.getD, List.getElem?_set_self hIlt]
              have hmiss2 : lookupMap cmap (((pySplit ast).set
                  (if 0 ≤ sel then sel
                   else ((pySplit ast).length : Int) + sel).toNat tgt).getD
                  (if 0 ≤ sel then sel
                   else (((pySplit ast).set
                     (if 0 ≤ sel then sel
                      else ((pySplit ast).length : Int) + sel).toNat tgt).length : Int)
                     + sel).toNat []) = none := by
                rw [hgetD, ← hpv]
                exact hv3
              have hout2 : ¬((if 0 ≤ sel then sel
                  else (((pySplit ast).set
                    (if 0 ≤ sel then sel
                     else ((pySplit ast).length : Int) + sel).toNat tgt).length : Int)
                    + sel) < 0
                ∨ (((pySplit ast).set
                    (if 0 ≤ sel then sel
                     else ((pySplit ast).length : Int) + sel).toNat tgt).length : Int)
                    ≤ (if 0 ≤ sel then sel
                       else (((pySplit ast).set
                         (if 0 ≤ sel then sel
                          else ((pySplit ast).length : Int) + sel).toNat tgt).length
                         : Int) + sel)) := by
                rw [hlen2]
                exact hout
              rw [repl_in_range_fixed (by rw [← hkw]; exact hrule) hargs2ne
                (fun tok htok => ⟨(htokA2 tok htok).1,
                  fun ch hch => ((htokA2 tok htok).2 ch hch).1⟩) hout2 hmiss2]
              rw [hsubrest, ← hkw]
              simp

/-- C1: for a matched binding region whose keyword resolves to a selector in
the rule set and whose token at the resolved index is a key of the alias
index, `repl` rewrites the region to marker + keyword + single space + the
argument tokens joined by single spaces, where exactly the designated token
has been replaced by its mapped target name: the token list keeps its
length, holds the target at the designated index, and agrees with the
original at every other index. -/
theorem c1_designated_token_replaced (rules : List (Str × Int))
    (cmap : List (Str × Str)) (binding ws argsStr : Str) (sel : Int)
    (args : List Str) (i : Nat) (tgt : Str)
    (hrule : (rules.find? (fun p => p.1 = binding)).map (·.2) = some sel)
    (hsplit : pySplit argsStr = args) (hne : args ≠ [])
    (hidx : (if 0 ≤ sel then sel else (args.length : Int) + sel) = (i : Int))
    (hlt : i < args.length)
    (hhit : lookupMap cmap (args.getD i []) = some tgt) :
    repl rules cmap binding ws argsStr
        = '&' :: (binding ++ ' ' :: joinSpace (args.set i tgt))
    ∧ (args.set i tgt).length = args.length
    ∧ (args.set i tgt).getD i [] = tgt
    ∧ ∀ j, j ≠ i → (args.set i tgt).getD j [] = args.getD j [] := by
  have h0 : ¬((i : Int) < 0 ∨ (args.length : Int) ≤ (i : Int)) := by
    push_neg
    exact ⟨Int.natCast_nonneg i, by exact_mod_cast hlt⟩
  refine ⟨?_, by simp, ?_, ?_⟩
  · rw [repl_rule_some hrule]
    simp only [hsplit, if_neg hne, hidx, if_neg h0, Int.toNat_natCast, hhit]
  · simp [List.getD, List.getElem?_set_self, hlt]
  · intro j hj
    simp [List.getD, List.getElem?_set_ne (Ne.symm hj)]

theorem c1_designated_token_replaced_witness :
    repl BINDING_KEY_ARG_RULES create_conversion_map
        "kp".data " ".data "AMPERSAND".data = "&kp JP_AMPERSAND".data := by
  have h := c1_designated_token_replaced BINDING_KEY_ARG_RULES
      create_conversion_map "kp".data " ".data "AMPERSAND".data 0
      ["AMPERSAND".data] 0 "JP_AMPERSAND".data
      (by decide) (by decide) (by decide) (by decide) (by decide) (by decide)
  exact h.1.trans (by decide)

/-- C3, counterexample: on the line `&kp  HELLO` (two spaces; `HELLO` is not
in the alias index) the match region is NOT left byte-identical: the rewriter
reassembles it with a single space, producing `&kp HELLO`. -/
theorem c3_counterexample :
    convert_keymap_line "&kp  HELLO".data create_conversion_map
        = "&kp HELLO".data
    ∧ convert_keymap_line "&kp  HELLO".data create_conversion_map
        ≠ "&kp  HELLO".data := by
  exact ⟨by decide, by decide⟩

/-- C3, amended: for a matched binding region whose keyword is in the rule
set, whose split argument list is non-empty with a valid resolved index, and
whose designated argument token is absent from the alias index, `repl`
changes no argument-token value but still reassembles the region as marker +
keyword + single space + the original tokens joined by single spaces (there
is no early return before reassembly, so the region is byte-identical to the
original only when its separators were already single spaces). -/
theorem c3_amended_absent_token_values_unchanged (rules : List (Str × Int))
    (cmap : List (Str × Str)) (binding ws argsStr : Str) (sel : Int)
    (args : List Str) (i : Nat)
    (hrule : (rules.find? (fun p => p.1 = binding)).map (·.2) = some sel)
    (hsplit : pySplit argsStr = args) (hne : args ≠ [])
    (hidx : (if 0 ≤ sel then sel else (args.length : Int) + sel) = (i : Int))
    (hlt : i < args.length)
    (hmiss : lookupMap cmap (args.getD i []) = none) :
    repl rules cmap binding ws argsStr
      = '&' :: (binding ++ ' ' :: joinSpace args) := by
  have h0 : ¬((i : Int) < 0 ∨ (args.length : Int) ≤ (i : Int)) := by
    push_neg
    exact ⟨Int.natCast_nonneg i, by exact_mod_cast hlt⟩
  rw [repl_rule_some hrule]
  simp only [hsplit, if_neg hne, hidx, if_neg h0, Int.toNat_natCast, hmiss]

theorem c3_amended_absent_token_values_unchanged_witness :
    repl BINDING_KEY_ARG_RULES create_conversion_map
        "kp".data "  ".data "HELLO".data = "&kp HELLO".data := by
  have h := c3_amended_absent_token_values_unchanged BINDING_KEY_ARG_RULES
      create_conversion_map "kp".data "  ".data "HELLO".data 0
      ["HELLO".data] 0
      (by decide) (by decide) (by decide) (by decide) (by decide) (by decide)
  exact h.trans (by decide)

/-- C5: an argument token containing a parenthesized modifier-wrapper
expression is treated as a single opaque token: since no key of the alias
index contains `(`, the designated token is never converted when it contains
a parenthesis, even though the code wrapped inside may itself equal a source
alias, and the region is reassembled with every token value unchanged. -/
theorem c5_wrapper_arguments_opaque (rules : List (Str × Int))
    (binding ws argsStr : Str) (sel : Int) (args : List Str) (i : Nat)
    (hrule : (rules.find? (fun p => p.1 = binding)).map (·.2) = some sel)
    (hsplit : pySplit argsStr = args) (hne : args ≠ [])
    (hidx : (if 0 ≤ sel then sel else (args.length : Int) + sel) = (i : Int))
    (hlt : i < args.length)
    (hparen : '(' ∈ args.getD i []) :
    repl rules create_conversion_map binding ws argsStr
      = '&' :: (binding ++ ' ' :: joinSpace args) := by
  have h0 : ¬((i : Int) < 0 ∨ (args.length : Int) ≤ (i : Int)) := by
    push_neg
    exact ⟨Int.natCast_nonneg i, by exact_mod_cast hlt⟩
  rw [repl_rule_some hrule]
  simp only [hsplit, if_neg hne, hidx, if_neg h0, Int.toNat_natCast,
    lookupMap_none_of_paren hparen]

theorem c5_wrapper_arguments_opaque_witness :
    repl BINDING_KEY_ARG_RULES create_conversion_map
        "kp".data " ".data "LS(CARET)".data = "&kp LS(CARET)".data := by
  have h := c5_wrapper_arguments_opaque BINDING_KEY_ARG_RULES
      "kp".data " ".data "LS(CARET)".data 0 ["LS(CARET)".data] 0
      (by decide) (by decide) (by decide) (by decide) (by decide) (by decide)
  exact h.trans (by decide)

/-- C7: a matched binding region whose keyword is not in the rule set is
returned byte-identical (`m.group(0)`), and a line on which the pattern
matches at no position passes through the scanner verbatim. -/
theorem c7_unrecognized_bindings_verbatim :
    (∀ (rules : List (Str × Int)) (cmap : List (Str × Str))
       (binding ws argsStr : Str),
       (rules.find? (fun p => p.1 = binding)).map (·.2) = none →
       repl rules cmap binding ws argsStr = '&' :: (binding ++ ws ++ argsStr))
    ∧ (∀ (rules : List (Str × Int)) (cmap : List (Str × Str)) (s : Str),
       (∀ t ∈ s.tails, matchBinding t = none) → subAll rules cmap s = s) := by
  constructor
  · intro rules cmap binding ws argsStr hnone
    unfold repl
    rw [hnone]
  · intro rules cmap s
    induction s with
    | nil => intro _; rfl
    | cons c cs ih =>
      intro hall
      have hc : matchBinding (c :: cs) = none :=
        hall (c :: cs) (by simp [List.mem_tails])
      rw [subAll_cons_none rules cmap hc, ih]
      intro t ht
      refine hall t ?_
      rw [List.mem_tails] at ht ⊢
      exact ht.trans (List.suffix_cons c cs)

theorem c7_unrecognized_bindings_verbatim_witness :
    repl BINDING_KEY_ARG_RULES create_conversion_map
        "foo".data " ".data "BAR".data = "&foo BAR".data
    ∧ subAll BINDING_KEY_ARG_RULES create_conversion_map "hello world".data
        = "hello world".data := by
  constructor
  · exact (c7_unrecognized_bindings_verbatim.1 BINDING_KEY_ARG_RULES
      create_conversion_map "foo".data " ".data "BAR".data
      (by decide)).trans (by decide)
  · exact c7_unrecognized_bindings_verbatim.2 BINDING_KEY_ARG_RULES
      create_conversion_map "hello world".data (by decide)

/-- C8: for a matched binding region whose keyword is in the rule set, the
match is returned unchanged (`m.group(0)`) when the whitespace-split
argument list is empty, and likewise when the resolved selector index
(selector if non-negative, `argumentCount + selector` if negative) falls
outside `[0, argumentCount)`; the argument list is never indexed at an
out-of-range position. -/
theorem c8_empty_or_out_of_range_unchanged (rules : List (Str × Int))
    (cmap : List (Str × Str)) (binding ws argsStr : Str) (sel : Int)
    (hrule : (rules.find? (fun p => p.1 = binding)).map (·.2) = some sel) :
    (pySplit argsStr = [] →
      repl rules cmap binding ws argsStr = '&' :: (binding ++ ws ++ argsStr))
    ∧ ((if 0 ≤ sel then sel else ((pySplit argsStr).length : Int) + sel) < 0
        ∨ ((pySplit argsStr).length : Int)
            ≤ (if 0 ≤ sel then sel else ((pySplit argsStr).length : Int) + sel) →
      repl rules cmap binding ws argsStr = '&' :: (binding ++ ws ++ argsStr)) := by
  constructor
  · intro hempty
    rw [repl_rule_some hrule]
    simp [hempty]
  · intro hout
    rw [repl_rule_some hrule]
    by_cases hempty : pySplit argsStr = []
    · simp [hempty]
    · simp only [if_neg hempty, if_pos hout]

theorem c8_empty_or_out_of_range_unchanged_witness :
    repl BINDING_KEY_ARG_RULES create_conversion_map
        "kp".data " ".data " ".data = "&kp  ".data
    ∧ repl [("kp".data, (5 : Int))] create_conversion_map
        "kp".data " ".data "PIPE".data = "&kp PIPE".data := by
  constructor
  · exact ((c8_empty_or_out_of_range_unchanged BINDING_KEY_ARG_RULES
      create_conversion_map "kp".data " ".data " ".data 0 (by decide)).1
      (by decide)).trans (by decide)
  · exact ((c8_empty_or_out_of_range_unchanged [("kp".data, (5 : Int))]
      create_conversion_map "kp".data " ".data "PIPE".data 5 (by decide)).2
      (by decide)).trans (by decide)

/-- C6: the line rewriter is idempotent — rewriting an already-rewritten
line is a byte-level no-op for every input line — and in particular no
target name of the conversion table is itself a key of the alias index, so
already-converted binding text is never converted again. -/
theorem c6_rewriter_idempotent :
    (∀ L : Str, convert_keymap_line (convert_keymap_line L create_conversion_map)
        create_conversion_map = convert_keymap_line L create_conversion_map)
    ∧ CONVERSION_TABLE.all
        (fun e => (lookupMap create_conversion_map e.1).isNone) = true := by
  constructor
  · intro L
    exact subAll_idem BINDING_KEY_ARG_RULES create_conversion_map
      (by decide) L.length L (le_refl _)
  · decide

/-- C2, counterexample: the table entries at positions 14 (`JP_LBRACKET`) and
18 (`JP_LBRACE`) are distinct entries whose alias lists both contain `LBRC`,
so the alias sets of the full table are not pairwise disjoint. -/
theorem c2_counterexample :
    "LBRC".data ∈ (CONVERSION_TABLE.getD 14 default).2.1
    ∧ "LBRC".data ∈ (CONVERSION_TABLE.getD 18 default).2.1
    ∧ (CONVERSION_TABLE.getD 14 default).1 ≠ (CONVERSION_TABLE.getD 18 default).1 := by
  decide

/-- C2, amended: in the full conversion table, no source alias string appears
in the alias lists of two different target names, except for exactly the two
aliases `LBRC` (shared by `JP_LBRACKET` and `JP_LBRACE`) and `RBRC` (shared
by `JP_RBRACKET` and `JP_RBRACE`). -/
theorem c2_amended_only_brace_aliases_repeat :
    ∀ e1 ∈ CONVERSION_TABLE, ∀ e2 ∈ CONVERSION_TABLE, e1.1 ≠ e2.1 →
      ∀ a ∈ e1.2.1, a ∈ e2.2.1 → a = "LBRC".data ∨ a = "RBRC".data := by
  decide

theorem c2_amended_only_brace_aliases_repeat_witness :
    "LBRC".data = "LBRC".data ∨ "LBRC".data = "RBRC".data :=
  c2_amended_only_brace_aliases_repeat
    (CONVERSION_TABLE.getD 14 default) (by decide)
    (CONVERSION_TABLE.getD 18 default) (by decide) (by decide)
    "LBRC".data (by decide) (by decide)

/-- C4: the alias index maps every alias of every table entry to the target
name of the last table entry (in table order) whose alias list contains that
alias — later insertions win, since `create_conversion_map` performs plain
dict assignments in table order. -/
theorem c4_alias_index_last_write_wins :
    ∀ e ∈ CONVERSION_TABLE, ∀ a ∈ e.2.1,
      lookupMap create_conversion_map a =
        ((CONVERSION_TABLE.filter (fun e' => e'.2.1.contains a)).getLast?).map (·.1) := by
  decide

theorem c4_alias_index_last_write_wins_witness :
    lookupMap create_conversion_map "LBRC".data =
      ((CONVERSION_TABLE.filter (fun e' => e'.2.1.contains "LBRC".data)).getLast?).map (·.1) :=
  c4_alias_index_last_write_wins
    (CONVERSION_TABLE.getD 14 default) (by decide) "LBRC".data (by decide)

/-- C9: the generated header is exactly three banner lines, then one
constant-definition line per table entry in table order — `#define `, the
target name, `max 1 (20 - len(name))` padding spaces, the value
left-justified to width 20, and a `// ` comment holding the display
symbol — then one blank line, so the line count is 3 + entry count + 1;
splitting the joined header string on newlines recovers exactly these
lines. -/
theorem c9_header_layout :
    generate_define_header_lines.length = 3 + CONVERSION_TABLE.length + 1
    ∧ generate_define_header_lines.getLast? = some []
    ∧ generate_define_header.splitOn '\n' = generate_define_header_lines
    ∧ (∀ i, i < CONVERSION_TABLE.length →
        generate_define_header_lines.getD (3 + i) [] =
          "#define ".data ++ (CONVERSION_TABLE.getD i default).1
            ++ List.replicate (max 1 (20 - (CONVERSION_TABLE.getD i default).1.length)) ' '
            ++ ((CONVERSION_TABLE.getD i default).2.2.1
                ++ List.replicate (20 - (CONVERSION_TABLE.getD i default).2.2.1.length) ' ')
            ++ "// ".data ++ (CONVERSION_TABLE.getD i default).2.2.2) := by
  exact ⟨by decide, by decide, by decide, by decide⟩

theorem c9_header_layout_witness :
    generate_define_header_lines.getD 3 [] =
      "#define ".data ++ (CONVERSION_TABLE.getD 0 default).1
        ++ List.replicate (max 1 (20 - (CONVERSION_TABLE.getD 0 default).1.length)) ' '
        ++ ((CONVERSION_TABLE.getD 0 default).2.2.1
            ++ List.replicate (20 - (CONVERSION_TABLE.getD 0 default).2.2.1.length) ' ')
        ++ "// ".data ++ (CONVERSION_TABLE.getD 0 default).2.2.2 :=
  c9_header_layout.2.2.2 0 (by decide)

example : convert_keymap_line "&kp AMPERSAND".data create_conversion_map
    = "&kp JP_AMPERSAND".data := by decide

example : convert_keymap_line "&mt LSHFT SINGLE_QUOTE".data create_conversion_map
    = "&mt LSHFT JP_QUOTE".data := by decide

example : convert_keymap_line "&foo BAR".data create_conversion_map
    = "&foo BAR".data := by decide

example : convert_keymap_line "&kp  HELLO".data create_conversion_map
    = "&kp HELLO".data := by decide

example : convert_keymap_line "&kp LS(TAB)".data create_conversion_map
    = "&kp LS(TAB)".data := by decide
